import Mathlib

/-!
Verification development for the OldMusaServer alarm engine
(`src/alarm.py`: `AlarmFinder` and `AlarmManager`).

The Python code is shallowly embedded:

* `datetime` values are compared with `<` / `>` only, so timestamps are
  modelled by `Nat` through their linear order (`Time`).  The textual
  checkpoint-persistence format, which does look inside a datetime, is
  modelled separately by `PyDateTime` below with all seven components.
* SQL numeric measurement values (`REAL` / `Numeric` columns) enter the
  alarm logic only through order comparisons; they are modelled by `Int`.
* Database tables are lists of rows; the SQLAlchemy queries of `alarm.py`
  become list filters / joins over those rows.
* `AlarmedChannelData` is a plain Python class that defines neither
  `__eq__` nor `__hash__`, so Python dictionaries key such objects by
  object identity.  An object is therefore modelled as its field data
  together with an allocation tag `oid`; `pyEq` (identity comparison)
  compares the tags, and fresh objects are always allocated with a tag
  distinct from every live one.
* Python `dict`s keyed by these objects are association lists whose
  lookup uses `pyEq`; `dict`s keyed by `int` use structural equality.
* Fallible Python operations (`KeyError`, `ValueError`, `AttributeError`,
  `IndexError`) are modelled with `Option` / `Except`.
-/

namespace OldMusa

set_option maxRecDepth 4000

/-- `datetime` values, modelled through their linear order. -/
abbrev Time := Nat

/-- The field data of an `AlarmedChannelData` object (`alarm.py` lines 18-37):
local ids of site / sensor / channel, the three external ("cnr") ids, and the
configured alarm range of the channel. -/
structure AlarmedChannelFields where
  site_id : Int
  sensor_id : Int
  channel_id : Int
  cnr_site_id : String
  cnr_station_id : String
  cnr_channel_id : String
  range_min : Int
  range_max : Int
deriving DecidableEq, Repr

/-- A Python `AlarmedChannelData` object: its field data plus its object
identity tag.  The class defines no `__eq__`/`__hash__`, so `==`, `in` and
dictionary keying compare objects by identity (modelled by the tag). -/
structure AlarmedChannelData where
  oid : Nat
  data : AlarmedChannelFields
deriving DecidableEq, Repr

/-- Python `==` / dict-key comparison on `AlarmedChannelData` objects:
identity comparison (the class derives no structural equality). -/
def pyEq (a b : AlarmedChannelData) : Bool :=
  a.oid == b.oid

/-- A Python `dict` keyed by `AlarmedChannelData` objects. -/
abbrev PyDict (V : Type) := List (AlarmedChannelData × V)

/-- `d[k]` lookup (first entry whose key compares `pyEq` to `k`). -/
def dictLookup {V : Type} (d : PyDict V) (k : AlarmedChannelData) : Option V :=
  match d with
  | [] => none
  | (k2, v) :: rest => if pyEq k k2 then some v else dictLookup rest k

/-- Python `k in d`. -/
def dictContains {V : Type} (d : PyDict V) (k : AlarmedChannelData) : Bool :=
  (dictLookup d k).isSome

/-- Python `d[k] = v`: replace the value of an existing key, else append. -/
def dictInsert {V : Type} (d : PyDict V) (k : AlarmedChannelData) (v : V) : PyDict V :=
  match d with
  | [] => [(k, v)]
  | (k2, v2) :: rest =>
    if pyEq k k2 then (k2, v) :: rest else (k2, v2) :: dictInsert rest k v

/-- Python `del d[k]`, assuming the key is present (the caller checks);
removes the first `pyEq`-matching entry. -/
def dictErase {V : Type} (d : PyDict V) (k : AlarmedChannelData) : PyDict V :=
  match d with
  | [] => []
  | (k2, v2) :: rest =>
    if pyEq k k2 then rest else (k2, v2) :: dictErase rest k

/-- Python `x in l` for a list of `AlarmedChannelData` objects. -/
def pyMem (c : AlarmedChannelData) (l : List AlarmedChannelData) : Bool :=
  l.any (fun x => pyEq c x)

/-- Python `l.remove(x)`: remove the first `pyEq`-matching element
(`ValueError`, i.e. `none`, when no element matches). -/
def listRemove (l : List AlarmedChannelData) (c : AlarmedChannelData) :
    Option (List AlarmedChannelData) :=
  match l with
  | [] => none
  | x :: rest =>
    if pyEq c x then some rest
    else (listRemove rest c).map (fun r => x :: r)

/-- An `int`-keyed Python `dict` (used for `alarmed_channels_by_sensor`).
`int` has structural equality, so plain association-list operations apply. -/
abbrev IntDict (V : Type) := List (Int × V)

/-- Lookup in an `int`-keyed dict (`d.get(k)` / `k in d`). -/
def intLookup {V : Type} (d : IntDict V) (k : Int) : Option V :=
  match d with
  | [] => none
  | (k2, v) :: rest => if k = k2 then some v else intLookup rest k

/-- `d[k] = v` for an `int`-keyed dict. -/
def intInsert {V : Type} (d : IntDict V) (k : Int) (v : V) : IntDict V :=
  match d with
  | [] => [(k, v)]
  | (k2, v2) :: rest =>
    if k = k2 then (k2, v) :: rest else (k2, v2) :: intInsert rest k v

/-- `del d[k]` for an `int`-keyed dict (first matching entry). -/
def intErase {V : Type} (d : IntDict V) (k : Int) : IntDict V :=
  match d with
  | [] => []
  | (k2, v2) :: rest => if k = k2 then rest else (k2, v2) :: intErase rest k

/-! ### Database rows (`models.py`) -/

/-- A row of the CNR measurement table `ReadingData` (`models.py` lines
137-162); only the columns read by `alarm.py` are modelled. -/
structure Reading where
  site_id : String
  room_id : String
  station_id : String
  sensor_id : String
  channel_id : String
  value_min : Int
  value_max : Int
  date : Time
deriving DecidableEq, Repr

/-- A row of the `Site` table (columns used by `alarm.py`). -/
structure SiteRow where
  id : Int
  id_cnr : String
deriving DecidableEq, Repr

/-- A row of the `Sensor` table (columns used by `alarm.py`);
`id_cnr` is in reality the cnr station id. -/
structure SensorRow where
  id : Int
  site_id : Int
  id_cnr : String
  enabled : Bool
  status : String
deriving DecidableEq, Repr

/-- A row of the `Channel` table (columns used by `alarm.py`). -/
structure ChannelRow where
  id : Int
  sensor_id : Int
  id_cnr : String
  range_min : Int
  range_max : Int
deriving DecidableEq, Repr

/-! ### `AlarmFinder.control_data` (the Reading Aggregator) -/

/-- The five `ReadingData` columns that `control_data` groups by. -/
structure GroupKey where
  channel_id : String
  station_id : String
  sensor_id : String
  room_id : String
  site_id : String
deriving DecidableEq, Repr

/-- The group key of a reading. -/
def keyOf (r : Reading) : GroupKey :=
  ⟨r.channel_id, r.station_id, r.sensor_id, r.room_id, r.site_id⟩

/-- One row returned by the aggregation queries of `control_data`:
the aggregated value (`func.min(value_min)` resp. `func.max(value_max)`),
the five grouping columns, and a representative `date` (the ungrouped
`date` column; MySQL returns the value from an arbitrary row of the
group, modelled as the first group member in table order). -/
structure AggRecord where
  value : Int
  key : GroupKey
  date : Time
deriving DecidableEq, Repr

/-- Mutable state of an `AlarmFinder`: the scan checkpoint `last_time`.
(The `file_path` used to persist it is I/O; the persistence text format is
modelled below by `timeString` / `parseDate`.) -/
structure AlarmFinderState where
  last_time : Time
deriving DecidableEq, Repr

/-- The readings selected by the aggregation queries: those with
`ReadingData.date > check_time` (strictly). -/
def scanned (check_time : Time) (rs : List Reading) : List Reading :=
  rs.filter (fun r => check_time < r.date)

/-- Readings of one group. -/
def groupOf (k : GroupKey) (rs : List Reading) : List Reading :=
  rs.filter (fun r => keyOf r = k)

/-- `func.min(ReadingData.value_min)` over a (non-empty) group. -/
def aggMinValue : List Reading → Int
  | [] => 0
  | r :: rest => rest.foldl (fun a x => min a x.value_min) r.value_min

/-- `func.max(ReadingData.value_max)` over a (non-empty) group. -/
def aggMaxValue : List Reading → Int
  | [] => 0
  | r :: rest => rest.foldl (fun a x => max a x.value_max) r.value_max

/-- The `query_min` result rows over already-filtered readings:
one record per group with the minimum of `value_min`. -/
def aggMin (rs : List Reading) : List AggRecord :=
  (rs.map keyOf).eraseDups.filterMap (fun k =>
    match groupOf k rs with
    | [] => none
    | r :: rest => some ⟨aggMinValue (r :: rest), k, r.date⟩)

/-- The `query_max` result rows over already-filtered readings:
one record per group with the maximum of `value_max`. -/
def aggMax (rs : List Reading) : List AggRecord :=
  (rs.map keyOf).eraseDups.filterMap (fun k =>
    match groupOf k rs with
    | [] => none
    | r :: rest => some ⟨aggMaxValue (r :: rest), k, r.date⟩)

/-- `AlarmFinder.control_data` (`alarm.py` lines 66-105): remember the old
checkpoint as `check_time`, advance `last_time` to `now` (the value of
`datetime.datetime.now()`; its textual persistence is modelled by
`timeString` below), and return the two aggregation query results over
the readings with `date > check_time`. -/
def control_data (st : AlarmFinderState) (now : Time) (rs : List Reading) :
    (List AggRecord × List AggRecord) × AlarmFinderState :=
  let check_time := st.last_time
  let filtered := scanned check_time rs
  ((aggMin filtered, aggMax filtered), ⟨now⟩)

/-! ### `AlarmFinder.compare_data` -/

/-- One row of the catalog query of `compare_data` (`alarm.py` lines
118-127): channel / sensor / site columns with their labels. -/
structure CatalogRow where
  channel_id : Int
  channel_cnr_id : String
  range_min : Int
  range_max : Int
  sensor_id : Int
  station_cnr_id : String
  site_id : Int
  site_cnr_id : String
deriving DecidableEq, Repr

/-- The catalog query: join `Channel`, `Sensor`, `Site` on
`Sensor.id = Channel.sensor_id` and `Site.id = Sensor.site_id`, keeping
only channels of enabled sensors. -/
def channelsQuery (sites : List SiteRow) (sensors : List SensorRow)
    (channels : List ChannelRow) : List CatalogRow :=
  channels.foldr (fun ch acc =>
    sensors.foldr (fun se acc2 =>
      sites.foldr (fun si acc3 =>
        if se.id = ch.sensor_id ∧ si.id = se.site_id ∧ se.enabled then
          (⟨ch.id, ch.id_cnr, ch.range_min, ch.range_max,
            se.id, se.id_cnr, si.id, si.id_cnr⟩ : CatalogRow) :: acc3
        else acc3) acc2) acc) []

/-- The `AlarmedChannelData(...)` constructor call of `compare_data`,
applied to a catalog row (field data only; the identity tag is chosen by
the allocator at the call site). -/
def rowData (ch : CatalogRow) : AlarmedChannelFields :=
  ⟨ch.site_id, ch.sensor_id, ch.channel_id,
   ch.site_cnr_id, ch.station_cnr_id, ch.channel_cnr_id,
   ch.range_min, ch.range_max⟩

/-- The join condition of `compare_data`:
`ch.channel_cnr_id == record.channel_id and ch.site_cnr_id == record.site_id`
(only these two of the external identity components are compared). -/
def joinMatch (ch : CatalogRow) (rec : AggRecord) : Bool :=
  ch.channel_cnr_id == rec.key.channel_id && ch.site_cnr_id == rec.key.site_id

/-- Accumulator of the `compare_data` loops: the two breach dicts and the
allocation counter for fresh `AlarmedChannelData` objects. -/
structure CompareAcc where
  alarm_min : PyDict (Int × Time)
  alarm_max : PyDict (Int × Time)
  ctr : Nat
deriving DecidableEq, Repr

/-- Body of the inner loop over `channels` for a `query_min` record:
if the record joins the catalog row, classify `record[0] <= range_min`
as a min breach, `elif record[0] >= range_max` as a max breach; the
inserted key is a freshly allocated object. -/
def stepMin (rec : AggRecord) (acc : CompareAcc) (ch : CatalogRow) : CompareAcc :=
  if joinMatch ch rec then
    if rec.value ≤ ch.range_min then
      { acc with
        alarm_min := dictInsert acc.alarm_min ⟨acc.ctr, rowData ch⟩ (rec.value, rec.date)
        ctr := acc.ctr + 1 }
    else if ch.range_max ≤ rec.value then
      { acc with
        alarm_max := dictInsert acc.alarm_max ⟨acc.ctr, rowData ch⟩ (rec.value, rec.date)
        ctr := acc.ctr + 1 }
    else acc
  else acc

/-- Body of the inner loop over `channels` for a `query_max` record:
if the record joins the catalog row and `record[0] >= range_max`,
record a max breach. -/
def stepMax (rec : AggRecord) (acc : CompareAcc) (ch : CatalogRow) : CompareAcc :=
  if joinMatch ch rec then
    if ch.range_max ≤ rec.value then
      { acc with
        alarm_max := dictInsert acc.alarm_max ⟨acc.ctr, rowData ch⟩ (rec.value, rec.date)
        ctr := acc.ctr + 1 }
    else acc
  else acc

/-- `AlarmFinder.compare_data` (`alarm.py` lines 107-162): run
`control_data`, load the enabled-channel catalog, then the two
record-loops; returns the two breach dicts together with the updated
finder state and allocation counter. -/
def compare_data (st : AlarmFinderState) (now : Time) (rs : List Reading)
    (sites : List SiteRow) (sensors : List SensorRow) (channels : List ChannelRow)
    (ctr : Nat) :
    (PyDict (Int × Time) × PyDict (Int × Time)) × AlarmFinderState × Nat :=
  let q := control_data st now rs
  let cat := channelsQuery sites sensors channels
  let acc0 : CompareAcc := ⟨[], [], ctr⟩
  let acc1 := q.1.1.foldl (fun a rec => cat.foldl (stepMin rec) a) acc0
  let acc2 := q.1.2.foldl (fun a rec => cat.foldl (stepMax rec) a) acc1
  ((acc2.alarm_min, acc2.alarm_max), q.2, acc2.ctr)

/-! ### `AlarmFinder.check_alarmed` -/

/-- One step of scanning for the latest-dated reading. -/
def latestStep (acc : Option Reading) (r : Reading) : Option Reading :=
  match acc with
  | none => some r
  | some b => if b.date < r.date then some r else some b

/-- `order_by(ReadingData.date.desc()).first()`: a latest-dated element of
the list (on equal dates the earlier element in table order is kept). -/
def latestReading (rs : List Reading) : Option Reading :=
  rs.foldl latestStep none

/-- The per-channel measurement query of `check_alarmed`: readings whose
`site_id`, `station_id`, `channel_id` columns equal the channel's three
external ids. -/
def matchingReadings (rs : List Reading) (c : AlarmedChannelData) : List Reading :=
  rs.filter (fun r =>
    r.site_id = c.data.cnr_site_id ∧ r.station_id = c.data.cnr_station_id ∧
      r.channel_id = c.data.cnr_channel_id)

/-- Loop body of `check_alarmed`: fetch the latest matching reading of
one channel; when none exists the channel is skipped (warning logged),
otherwise `res[channel] = value_min > range_min and value_max < range_max`. -/
def checkStep (rs : List Reading) (res : PyDict Bool)
    (channel : AlarmedChannelData) : PyDict Bool :=
  match latestReading (matchingReadings rs channel) with
  | none => res
  | some m =>
    dictInsert res channel
      (decide (channel.data.range_min < m.value_min) &&
       decide (m.value_max < channel.data.range_max))

/-- `AlarmFinder.check_alarmed` (`alarm.py` lines 164-184). -/
def check_alarmed (rs : List Reading) (channel_data : List AlarmedChannelData) :
    PyDict Bool :=
  channel_data.foldl (checkStep rs) []

/-! ### `AlarmManager` -/

/-- The status string `"{} fired".format(channel_ids)` (Python renders a
list of ints as `[a, b, ...]`, as `toString` does here). -/
def firedStatus (channel_ids : List Int) : String :=
  toString channel_ids ++ " fired"

/-- State of an `AlarmManager` together with the database rows it writes:
the alarm registry, the derived per-sensor index, the `Sensor` table
(whose `status` column `update_sensor_status` mutates), the list of
notifications handed to the contacter, and the allocation counter for
fresh objects. -/
structure AlarmManagerState where
  alarmed_channels : PyDict Time
  alarmed_channels_by_sensor : IntDict (List AlarmedChannelData)
  sensors : List SensorRow
  outbox : List (Int × Int)
  ctr : Nat
deriving DecidableEq, Repr

/-- `AlarmManager.update_sensor_status` (`alarm.py` lines 252-271):
recompute the status string of one sensor from the derived index and
write it back (a missing sensor row is skipped with a warning). -/
def update_sensor_status (mst : AlarmManagerState) (sensor_id : Int) :
    AlarmManagerState :=
  let sites := (intLookup mst.alarmed_channels_by_sensor sensor_id).getD []
  let channel_ids := sites.map (fun s => s.data.channel_id)
  if (mst.sensors.find? (fun s => s.id = sensor_id)).isNone then mst
  else
    let status := if 0 < channel_ids.length then firedStatus channel_ids else "ok"
    { mst with
      sensors := mst.sensors.map (fun s =>
        if s.id = sensor_id then { s with status := status } else s) }

/-- `AlarmManager.on_alarm_start` (`alarm.py` lines 273-285): insert the
channel into the registry with the breach date, append it to its sensor's
index list (creating the list if absent), persist (`save_alarmed_channels`
is I/O over the current registry), update the sensor status and notify
the contacter. -/
def on_alarm_start (mst : AlarmManagerState) (date : Time)
    (channel_data : AlarmedChannelData) (measure : Int) : AlarmManagerState :=
  let reg := dictInsert mst.alarmed_channels channel_data date
  let idx :=
    match intLookup mst.alarmed_channels_by_sensor channel_data.data.sensor_id with
    | some l =>
      intInsert mst.alarmed_channels_by_sensor channel_data.data.sensor_id
        (l ++ [channel_data])
    | none =>
      intInsert mst.alarmed_channels_by_sensor channel_data.data.sensor_id
        [channel_data]
  let mst1 := { mst with alarmed_channels := reg, alarmed_channels_by_sensor := idx }
  let mst2 := update_sensor_status mst1 channel_data.data.sensor_id
  { mst2 with outbox := mst2.outbox ++ [(channel_data.data.channel_id, measure)] }

/-- `AlarmManager.on_alarm_continue` (`alarm.py` lines 287-289): log only,
no state change. -/
def on_alarm_continue (mst : AlarmManagerState) (_channel_data : AlarmedChannelData)
    (_measure : Int) : AlarmManagerState :=
  mst

/-- `AlarmManager.on_alarm_end` (`alarm.py` lines 291-302): delete the
channel from the registry, remove it from its sensor's index list
(`KeyError` / `ValueError`, modelled by `none`, if absent), drop the list
when it becomes empty, persist, and update the sensor status. -/
def on_alarm_end (mst : AlarmManagerState) (channel_data : AlarmedChannelData) :
    Option AlarmManagerState :=
  if ¬ dictContains mst.alarmed_channels channel_data then none
  else
    let reg := dictErase mst.alarmed_channels channel_data
    match intLookup mst.alarmed_channels_by_sensor channel_data.data.sensor_id with
    | none => none
    | some sensor_channels =>
      match listRemove sensor_channels channel_data with
      | none => none
      | some remaining =>
        let idx :=
          if remaining.length = 0 then
            intErase mst.alarmed_channels_by_sensor channel_data.data.sensor_id
          else
            intInsert mst.alarmed_channels_by_sensor channel_data.data.sensor_id
              remaining
        let mst1 :=
          { mst with alarmed_channels := reg, alarmed_channels_by_sensor := idx }
        some (update_sensor_status mst1 channel_data.data.sensor_id)

/-- The min-breach (or max-breach) pass of `on_timer_tick`: for each entry
of the breach dict, `on_alarm_start` when the channel is not a registry
key, else `on_alarm_continue`. -/
def breachPass (mst : AlarmManagerState) (alarms : PyDict (Int × Time))
    (_measure_type : Nat) : AlarmManagerState :=
  alarms.foldl (fun m kv =>
    if ¬ dictContains m.alarmed_channels kv.1 then
      on_alarm_start m kv.2.2 kv.1 kv.2.1
    else
      on_alarm_continue m kv.1 kv.2.1) mst

/-- The clearance pass of `on_timer_tick`: for every entry of the
`check_alarmed` result that reports the alarm extinguished, run
`on_alarm_end`. -/
def endPass (mst : AlarmManagerState) (status : PyDict Bool) :
    Option AlarmManagerState :=
  status.foldl (fun acc kv =>
    acc.bind (fun m =>
      if kv.2 then on_alarm_end m kv.1 else some m)) (some mst)

/-- `AlarmManager.on_timer_tick` (`alarm.py` lines 226-250): run
`compare_data`, process the min-breach dict, then the max-breach dict,
then check the currently alarmed channels and end every extinguished
alarm.  `MIN_MEASURE = 1`, `MAX_MEASURE = 2`. -/
def on_timer_tick (fst : AlarmFinderState) (now : Time) (rs : List Reading)
    (sites : List SiteRow) (sensors_tbl : List SensorRow)
    (channels_tbl : List ChannelRow) (mst : AlarmManagerState) :
    AlarmFinderState × Option AlarmManagerState :=
  let r := compare_data fst now rs sites sensors_tbl channels_tbl mst.ctr
  let mst0 := { mst with ctr := r.2.2 }
  let mst1 := breachPass mst0 r.1.1 1
  let mst2 := breachPass mst1 r.1.2 2
  let status := check_alarmed rs (mst2.alarmed_channels.map (fun kv => kv.1))
  (r.2.1, endPass mst2 status)

/-! ### Registry persistence (`save_alarmed_channels` / `load_alarmed_channels`) -/

/-- `AlarmManager.save_alarmed_channels` (`alarm.py` lines 304-306):
`pickle.dump` of the registry.  Pickling an object graph keeps field
values but not object identities, so the persisted blob is the list of
(field data, started_at) pairs in registry order. -/
def save_alarmed_channels (reg : PyDict Time) : List (AlarmedChannelFields × Time) :=
  reg.map (fun kv => (kv.1.data, kv.2))

/-- `pickle.load` of a saved registry: every key becomes a freshly
allocated object (new identity tags from `ctr` on). -/
def unpickleRegistry (blob : List (AlarmedChannelFields × Time)) (ctr : Nat) :
    PyDict Time × Nat :=
  match blob with
  | [] => ([], ctr)
  | (f, t) :: rest =>
    let r := unpickleRegistry rest (ctr + 1)
    ((⟨ctr, f⟩, t) :: r.1, r.2)

/-- `dict.fromkeys(keys)`: a dict mapping every listed key to `None`
(later duplicates keep the first slot, whose value is `None` anyway). -/
def fromkeysNone (keys : List Int) : IntDict (Option (List AlarmedChannelData)) :=
  keys.foldl (fun d k =>
    if (intLookup d k).isSome then d else d ++ [(k, none)]) []

/-- The index-rebuild loop of `load_alarmed_channels`:
`self.alarmed_channels_by_sensor[x.sensor_id].append(x)` for every
registry key `x`.  Looking up a missing key raises `KeyError`; calling
`.append` on a `None` value raises `AttributeError` (both `Except.error`). -/
def rebuildLoop (idx : IntDict (Option (List AlarmedChannelData)))
    (keys : List AlarmedChannelData) :
    Except String (IntDict (Option (List AlarmedChannelData))) :=
  match keys with
  | [] => .ok idx
  | x :: rest =>
    match intLookup idx x.data.sensor_id with
    | none => .error "KeyError"
    | some none => .error "AttributeError: NoneType object has no attribute append"
    | some (some l) =>
      rebuildLoop (intInsert idx x.data.sensor_id (some (l ++ [x]))) rest

/-- `AlarmManager.load_alarmed_channels` (`alarm.py` lines 308-319):
unpickle the registry (empty when no file was saved), then rebuild the
per-sensor index with `dict.fromkeys` followed by the append loop. -/
def load_alarmed_channels (blob : Option (List (AlarmedChannelFields × Time)))
    (ctr : Nat) :
    Except String
      (PyDict Time × IntDict (Option (List AlarmedChannelData)) × Nat) :=
  let r := match blob with
    | some l => unpickleRegistry l ctr
    | none => ([], ctr)
  let reg := r.1
  let idx0 := fromkeysNone (reg.map (fun kv => kv.1.data.sensor_id))
  (rebuildLoop idx0 (reg.map (fun kv => kv.1))).map (fun idx => (reg, idx, r.2))

/-! ### `AlarmManager.start` (startup reconciliation) -/

/-- `AlarmManager.start` (`alarm.py` lines 211-224): query the sensors
whose status is not `"ok"`; reset to `"ok"` every such sensor whose id is
not a key of the derived per-sensor index; commit.  Modelled as the
updated `Sensor` table. -/
def start (sensors : List SensorRow)
    (idx : IntDict (List AlarmedChannelData)) : List SensorRow :=
  sensors.map (fun s =>
    if s.status ≠ "ok" ∧ (intLookup idx s.id).isNone then
      { s with status := "ok" }
    else s)

/-! ### The checkpoint text format (`control_data` lines 75-81,
`load_config` lines 46-58) -/

/-- A Python `datetime` value with its seven components (as used by the
checkpoint text format). -/
structure PyDateTime where
  year : Nat
  month : Nat
  day : Nat
  hour : Nat
  minute : Nat
  second : Nat
  microsecond : Nat
deriving DecidableEq, Repr

/-- Text is modelled as the list of character code points
(space = 32, digit d = 48 + d). -/
abbrev PyText := List Nat

/-- Decimal digits of `n` as code points, most significant first
(`str(n)` for `n > 0`); structural recursion on a fuel bound. -/
def natReprAux (fuel n : Nat) : PyText :=
  match fuel with
  | 0 => []
  | fuel + 1 => if n = 0 then [] else natReprAux fuel (n / 10) ++ [48 + n % 10]

/-- Python `str(n)` for a natural number. -/
def natRepr (n : Nat) : PyText :=
  if n = 0 then [48] else natReprAux n n

/-- Python `int(s)` on a string of decimal digits. -/
def parseNat (s : PyText) : Nat :=
  s.foldl (fun a c => a * 10 + (c - 48)) 0

/-- Python `s.split(" ")` (splitting at every single space). -/
def splitAux (cur : PyText) (s : PyText) : List PyText :=
  match s with
  | [] => [cur.reverse]
  | c :: rest =>
    if c = 32 then cur.reverse :: splitAux [] rest
    else splitAux (c :: cur) rest

/-- Python `s.split(" ")`. -/
def splitSpaces (s : PyText) : List PyText :=
  splitAux [] s

/-- The `time_string` built by `control_data` (lines 75-77): the seven
datetime components rendered with `str` and joined with single spaces. -/
def timeString (d : PyDateTime) : PyText :=
  natRepr d.year ++ 32 :: natRepr d.month ++ 32 :: natRepr d.day ++
    32 :: natRepr d.hour ++ 32 :: natRepr d.minute ++
    32 :: natRepr d.second ++ 32 :: natRepr d.microsecond

/-- Days in a month of the (proleptic Gregorian) calendar used by
Python's `datetime` range validation. -/
def daysInMonth (y m : Nat) : Nat :=
  if m = 2 then
    if y % 4 = 0 ∧ (y % 100 ≠ 0 ∨ y % 400 = 0) then 29 else 28
  else if m = 4 ∨ m = 6 ∨ m = 9 ∨ m = 11 then 30
  else 31

/-- The range validation performed by the `datetime.datetime(...)`
constructor. -/
def validDateTime (d : PyDateTime) : Bool :=
  1 ≤ d.year && d.year ≤ 9999 && 1 ≤ d.month && d.month ≤ 12 &&
    1 ≤ d.day && d.day ≤ daysInMonth d.year d.month &&
    d.hour ≤ 23 && d.minute ≤ 59 && d.second ≤ 59 && d.microsecond ≤ 999999

/-- The checkpoint parser of `load_config` (lines 56-58):
`date = text.split(" ")` followed by
`datetime.datetime(int(date[0]), ..., int(date[6]))`.
Fewer than seven parts raise `IndexError`, out-of-range components raise
`ValueError`; both are modelled by `none`. -/
def parseDate (s : PyText) : Option PyDateTime :=
  match splitSpaces s with
  | y :: mo :: dd :: h :: mi :: se :: us :: _ =>
    let d : PyDateTime :=
      ⟨parseNat y, parseNat mo, parseNat dd, parseNat h, parseNat mi,
       parseNat se, parseNat us⟩
    if validDateTime d then some d else none
  | _ => none

/-! ### Spec-side definition used for claim C5 -/

/-- Modelled from the spec: the join "by full identity tuple" demanded by
the specification (section 4.3 step 3) — a record matches a catalog
channel when all three external identity components (site, station,
channel) agree.  This is the spec's join; the code's actual join is
`joinMatch` above. -/
def specFullIdentityMatch (ch : CatalogRow) (rec : AggRecord) : Bool :=
  rec.key.site_id == ch.site_cnr_id && rec.key.station_id == ch.station_cnr_id &&
    rec.key.channel_id == ch.channel_cnr_id

/-- Allocation soundness of a `CompareAcc`: every key inserted so far
carries a tag below the counter (true throughout `compare_data`, whose
keys are all freshly allocated). -/
def accBound (acc : CompareAcc) : Prop :=
  (∀ kv ∈ acc.alarm_min, kv.1.oid < acc.ctr) ∧
  (∀ kv ∈ acc.alarm_max, kv.1.oid < acc.ctr)

/-! ### Derived notions used by the invariant and iteration claims -/

/-- No two elements of the list are the same object. -/
def pairwiseDistinct : List AlarmedChannelData → Bool
  | [] => true
  | c :: rest => !pyMem c rest && pairwiseDistinct rest

/-- No duplicated keys in an `int`-keyed dict (true of every Python dict). -/
def intKeysDistinct {V : Type} : IntDict V → Bool
  | [] => true
  | (k, _) :: rest => (intLookup rest k).isNone && intKeysDistinct rest

/-- The consistency invariant between `alarmed_channels` and the derived
index `alarmed_channels_by_sensor`: every registry key is listed under its
sensor, everything listed is a registry key of that sensor, no sensor maps
to an empty list, and both containers are duplicate-free as Python dicts
and the per-sensor lists are. -/
def registryIndexInv (reg : PyDict Time)
    (idx : IntDict (List AlarmedChannelData)) : Bool :=
  reg.all (fun kv =>
    match intLookup idx kv.1.data.sensor_id with
    | some l => l.any (fun c => decide (c = kv.1))
    | none => false) &&
  idx.all (fun sl =>
    !sl.2.isEmpty && pairwiseDistinct sl.2 &&
      sl.2.all (fun c =>
        reg.any (fun kv => decide (kv.1 = c)) && c.data.sensor_id == sl.1)) &&
  pairwiseDistinct (reg.map Prod.fst) &&
  intKeysDistinct idx

/-- The finder states reached by a sequence of later polls with the given
clock values (each tick runs `control_data`, whose returned state is the
next tick's input state). -/
def runStates (st : AlarmFinderState) (nows : List Time) (rs : List Reading) :
    List AlarmFinderState :=
  match nows with
  | [] => []
  | n :: rest =>
    let st2 := (control_data st n rs).2
    st2 :: runStates st2 rest rs

/-! ## General lemmas -/

/-- Every code point produced by `natReprAux` is a decimal digit. -/
theorem natReprAux_digits (fuel : Nat) : ∀ n c, c ∈ natReprAux fuel n →
    48 ≤ c ∧ c ≤ 57 := by
  induction fuel with
  | zero => intro n c hc; simp [natReprAux] at hc
  | succ fuel ih =>
    intro n c hc
    unfold natReprAux at hc
    by_cases hn : n = 0
    · simp [hn] at hc
    · simp only [hn, if_false, List.mem_append, List.mem_singleton] at hc
      rcases hc with hc | hc
      · exact ih _ _ hc
      · subst hc
        have : n % 10 < 10 := Nat.mod_lt _ (by norm_num)
        omega

/-- `str(n)` contains no space. -/
theorem natRepr_no_space (n : Nat) : ∀ c ∈ natRepr n, c ≠ 32 := by
  intro c hc
  unfold natRepr at hc
  by_cases hn : n = 0
  · simp [hn] at hc
    omega
  · simp only [hn, if_false] at hc
    have := natReprAux_digits n n c hc
    omega

/-- Splitting consumes a space-free chunk up to the next space. -/
theorem splitAux_chunk (a : PyText) (ha : ∀ c ∈ a, c ≠ 32) :
    ∀ cur s, splitAux cur (a ++ 32 :: s) = (cur.reverse ++ a) :: splitAux [] s := by
  induction a with
  | nil => intro cur s; simp [splitAux]
  | cons c a2 ih =>
    intro cur s
    have hc : c ≠ 32 := ha c (List.mem_cons_self c a2)
    have ha2 : ∀ x ∈ a2, x ≠ 32 := fun x hx => ha x (List.mem_cons_of_mem c hx)
    simp only [List.cons_append, splitAux, if_neg hc, List.append_eq]
    rw [ih ha2]
    simp

/-- Splitting a space-free text yields a single chunk. -/
theorem splitAux_last (a : PyText) (ha : ∀ c ∈ a, c ≠ 32) :
    ∀ cur, splitAux cur a = [cur.reverse ++ a] := by
  induction a with
  | nil => intro cur; simp [splitAux]
  | cons c a2 ih =>
    intro cur
    have hc : c ≠ 32 := ha c (List.mem_cons_self c a2)
    have ha2 : ∀ x ∈ a2, x ≠ 32 := fun x hx => ha x (List.mem_cons_of_mem c hx)
    simp only [splitAux, if_neg hc]
    rw [ih ha2]
    simp

/-- `split(" ")` of a space-free chunk followed by a space. -/
theorem splitSpaces_chunk (a s : PyText) (ha : ∀ c ∈ a, c ≠ 32) :
    splitSpaces (a ++ 32 :: s) = a :: splitSpaces s := by
  unfold splitSpaces
  rw [splitAux_chunk a ha]
  simp

/-- Evaluating the decimal parse of `natReprAux` under an accumulator. -/
theorem parse_natReprAux (fuel : Nat) : ∀ n a, n ≤ fuel → 0 < n →
    List.foldl (fun x c => x * 10 + (c - 48)) a (natReprAux fuel n) =
      a * 10 ^ (natReprAux fuel n).length + n := by
  induction fuel with
  | zero => intro n a hn hpos; omega
  | succ fuel ih =>
    intro n a hn hpos
    have hne : n ≠ 0 := Nat.pos_iff_ne_zero.mp hpos
    unfold natReprAux
    simp only [hne, if_false]
    rw [List.foldl_append]
    by_cases hdiv : n / 10 = 0
    · have haux : natReprAux fuel 0 = [] := by cases fuel <;> simp [natReprAux]
      have hlt : n < 10 := by
        rcases Nat.lt_or_ge n 10 with h | h
        · exact h
        · exact absurd hdiv (by
            have := Nat.div_le_div_right (c := 10) h
            simp at this
            omega)
      rw [hdiv, haux]
      simp only [List.foldl_cons, List.foldl_nil, List.nil_append,
        List.length_cons, List.length_nil]
      have : n % 10 = n := Nat.mod_eq_of_lt hlt
      simp [this]
    · have hdivpos : 0 < n / 10 := Nat.pos_iff_ne_zero.mpr hdiv
      have hdivle : n / 10 ≤ fuel := by
        have : n / 10 < n := Nat.div_lt_self hpos (by norm_num)
        omega
      rw [ih (n / 10) a hdivle hdivpos]
      simp only [List.foldl_cons, List.foldl_nil, List.length_append,
        List.length_cons, List.length_nil]
      have hd : 48 + n % 10 - 48 = n % 10 := by omega
      rw [hd]
      have hpow : 10 ^ ((natReprAux fuel (n / 10)).length + (0 + 1)) =
          10 ^ (natReprAux fuel (n / 10)).length * 10 := by
        simp [Nat.pow_succ]
      rw [hpow]
      have hmod : 10 * (n / 10) + n % 10 = n := Nat.div_add_mod n 10
      have : (a * 10 ^ (natReprAux fuel (n / 10)).length + n / 10) * 10 + n % 10 =
          a * (10 ^ (natReprAux fuel (n / 10)).length * 10) +
            (10 * (n / 10) + n % 10) := by ring
      rw [this, hmod]

/-- `int(str(n)) = n`: the decimal text round-trips every natural. -/
theorem parseNat_natRepr (n : Nat) : parseNat (natRepr n) = n := by
  unfold natRepr parseNat
  by_cases hn : n = 0
  · simp [hn]
  · simp only [hn, if_false]
    have := parse_natReprAux n n 0 (Nat.le_refl n) (Nat.pos_iff_ne_zero.mpr hn)
    rw [this]
    simp

/-- The seven chunks of `time_string` are recovered by `split(" ")`. -/
theorem splitSpaces_timeString (d : PyDateTime) :
    splitSpaces (timeString d) =
      [natRepr d.year, natRepr d.month, natRepr d.day, natRepr d.hour,
       natRepr d.minute, natRepr d.second, natRepr d.microsecond] := by
  unfold timeString
  simp only [List.append_assoc, List.cons_append]
  rw [splitSpaces_chunk _ _ (natRepr_no_space d.year),
    splitSpaces_chunk _ _ (natRepr_no_space d.month),
    splitSpaces_chunk _ _ (natRepr_no_space d.day),
    splitSpaces_chunk _ _ (natRepr_no_space d.hour),
    splitSpaces_chunk _ _ (natRepr_no_space d.minute),
    splitSpaces_chunk _ _ (natRepr_no_space d.second)]
  unfold splitSpaces
  rw [splitAux_last _ (natRepr_no_space d.microsecond)]
  simp

/-- Identity comparison is reflexive. -/
theorem pyEq_refl (a : AlarmedChannelData) : pyEq a a = true := by
  simp [pyEq]

/-- Identity comparison is symmetric. -/
theorem pyEq_comm (a b : AlarmedChannelData) : pyEq a b = pyEq b a := by
  unfold pyEq
  by_cases h : a.oid = b.oid
  · rw [h]
  · have h1 : (a.oid == b.oid) = false := by simpa using h
    have h2 : (b.oid == a.oid) = false := by
      simpa using fun hh => h hh.symm
    rw [h1, h2]

/-- Looking up the key just inserted. -/
theorem dictLookup_insert_self {V : Type} (d : PyDict V)
    (k : AlarmedChannelData) (v : V) :
    dictLookup (dictInsert d k v) k = some v := by
  induction d with
  | nil => simp [dictInsert, dictLookup, pyEq_refl]
  | cons kv rest ih =>
    by_cases h : pyEq k kv.1 = true
    · simp [dictInsert, dictLookup, h]
    · simp only [Bool.not_eq_true] at h
      simp [dictInsert, dictLookup, h, ih]

/-- Inserting under a different identity does not change a lookup. -/
theorem dictLookup_insert_other {V : Type} (d : PyDict V)
    (k k2 : AlarmedChannelData) (v : V) (h : pyEq k2 k = false) :
    dictLookup (dictInsert d k v) k2 = dictLookup d k2 := by
  induction d with
  | nil => simp [dictInsert, dictLookup, h]
  | cons kv rest ih =>
    by_cases h2 : pyEq k kv.1 = true
    · have h3 : pyEq k2 kv.1 = false := by
        have e2 : k.oid = kv.1.oid := by simpa [pyEq] using h2
        have e1 : ¬ k2.oid = k.oid := by simpa [pyEq] using h
        rw [e2] at e1
        simpa [pyEq] using e1
      simp [dictInsert, dictLookup, h2, h3]
    · simp only [Bool.not_eq_true] at h2
      by_cases h4 : pyEq k2 kv.1 = true
      · simp [dictInsert, dictLookup, h2, h4]
      · simp only [Bool.not_eq_true] at h4
        simp [dictInsert, dictLookup, h2, h4, ih]

/-- A fold of `checkStep` over channels of other identities leaves the
lookup of `cd` unchanged. -/
theorem check_fold_untouched (rs : List Reading)
    (cds : List AlarmedChannelData) (cd : AlarmedChannelData) :
    ∀ res, (∀ c ∈ cds, pyEq cd c = false) →
      dictLookup (cds.foldl (checkStep rs) res) cd = dictLookup res cd := by
  induction cds with
  | nil => intro res _; rfl
  | cons c rest ih =>
    intro res hall
    have hc : pyEq cd c = false := hall c (List.mem_cons_self c rest)
    have hrest : ∀ x ∈ rest, pyEq cd x = false :=
      fun x hx => hall x (List.mem_cons_of_mem c hx)
    simp only [List.foldl_cons]
    rw [ih _ hrest]
    unfold checkStep
    cases latestReading (matchingReadings rs c) with
    | none => rfl
    | some m => exact dictLookup_insert_other res c cd _ hc

/-- `pairwiseDistinct` gives non-identity with every later element. -/
theorem pairwiseDistinct_head (c : AlarmedChannelData)
    (rest : List AlarmedChannelData) (h : pairwiseDistinct (c :: rest) = true) :
    (∀ x ∈ rest, pyEq c x = false) ∧ pairwiseDistinct rest = true := by
  simp only [pairwiseDistinct, Bool.and_eq_true, Bool.not_eq_true'] at h
  refine ⟨?_, h.2⟩
  intro x hx
  have := h.1
  simp only [pyMem, List.any_eq_false] at this
  simpa using this x hx

/-- Lookup of a channel in the `check_alarmed` result, assuming the input
channel list has pairwise distinct identities (true of registry keys). -/
theorem check_alarmed_lookup (rs : List Reading)
    (cds : List AlarmedChannelData) (cd : AlarmedChannelData) :
    ∀ res, pairwiseDistinct cds = true → cd ∈ cds →
      dictLookup (cds.foldl (checkStep rs) res) cd =
        (match latestReading (matchingReadings rs cd) with
          | none => dictLookup res cd
          | some m =>
            some (decide (cd.data.range_min < m.value_min) &&
              decide (m.value_max < cd.data.range_max))) := by
  induction cds with
  | nil => intro res _ hmem; simp at hmem
  | cons c rest ih =>
    intro res hdist hmem
    obtain ⟨hhead, hrest⟩ := pairwiseDistinct_head c rest hdist
    rcases List.mem_cons.mp hmem with hcd | hcd
    · subst hcd
      have huntouched : ∀ x ∈ rest, pyEq cd x = false := hhead
      simp only [List.foldl_cons]
      rw [check_fold_untouched rs rest cd _ huntouched]
      unfold checkStep
      cases latestReading (matchingReadings rs cd) with
      | none => rfl
      | some m => exact dictLookup_insert_self res cd _
    · have hne : pyEq cd c = false := by
        rw [pyEq_comm]; exact hhead cd hcd
      simp only [List.foldl_cons]
      rw [ih _ hrest hcd]
      cases latestReading (matchingReadings rs cd) with
      | none =>
        simp only
        unfold checkStep
        cases latestReading (matchingReadings rs c) with
        | none => rfl
        | some m => exact dictLookup_insert_other res c cd _ hne
      | some m => rfl

/-- Folding `latestStep` from a `some` accumulator never yields `none`. -/
theorem latestFold_isSome (l : List Reading) :
    ∀ b, (l.foldl latestStep (some b)).isSome := by
  induction l with
  | nil => intro b; rfl
  | cons r t ih =>
    intro b
    simp only [List.foldl_cons, latestStep]
    by_cases h : b.date < r.date
    · simp only [if_pos h]; exact ih r
    · simp only [if_neg h]; exact ih b

/-- A non-empty reading list has a latest reading. -/
theorem latestReading_of_ne_nil (l : List Reading) (h : l ≠ []) :
    ∃ m, latestReading l = some m := by
  cases l with
  | nil => exact absurd rfl h
  | cons r t =>
    have := latestFold_isSome t r
    unfold latestReading
    simp only [List.foldl_cons, latestStep]
    exact Option.isSome_iff_exists.mp this

/-- The fold result dominates the accumulator's date. -/
theorem latestFold_acc_le (l : List Reading) :
    ∀ b m, l.foldl latestStep (some b) = some m → b.date ≤ m.date := by
  induction l with
  | nil =>
    intro b m h
    simp only [List.foldl_nil, Option.some_inj] at h
    subst h
    exact Nat.le_refl _
  | cons r t ih =>
    intro b m h
    simp only [List.foldl_cons, latestStep] at h
    by_cases hbr : b.date < r.date
    · rw [if_pos hbr] at h
      exact Nat.le_trans (Nat.le_of_lt hbr) (ih r m h)
    · rw [if_neg hbr] at h
      exact ih b m h

/-- The fold result comes from the list or the accumulator. -/
theorem latestFold_mem (l : List Reading) :
    ∀ acc m, l.foldl latestStep acc = some m → m ∈ l ∨ acc = some m := by
  induction l with
  | nil => intro acc m h; exact Or.inr h
  | cons r t ih =>
    intro acc m h
    simp only [List.foldl_cons] at h
    rcases ih (latestStep acc r) m h with hm | hm
    · exact Or.inl (List.mem_cons_of_mem r hm)
    · cases acc with
      | none =>
        simp only [latestStep, Option.some_inj] at hm
        exact Or.inl (hm ▸ List.mem_cons_self r t)
      | some b =>
        simp only [latestStep] at hm
        by_cases hbr : b.date < r.date
        · rw [if_pos hbr] at hm
          simp only [Option.some_inj] at hm
          exact Or.inl (hm ▸ List.mem_cons_self r t)
        · rw [if_neg hbr] at hm
          exact Or.inr hm

/-- The fold result has the maximal date of the list. -/
theorem latestFold_max (l : List Reading) :
    ∀ acc m, l.foldl latestStep acc = some m → ∀ r ∈ l, r.date ≤ m.date := by
  induction l with
  | nil => intro acc m _ r hr; simp at hr
  | cons x t ih =>
    intro acc m h r hr
    simp only [List.foldl_cons] at h
    rcases List.mem_cons.mp hr with hx | hx
    · subst hx
      have hstep : ∃ c, latestStep acc r = some c ∧ r.date ≤ c.date := by
        cases acc with
        | none => exact ⟨r, rfl, Nat.le_refl _⟩
        | some b =>
          by_cases hbr : b.date < r.date
          · exact ⟨r, by simp only [latestStep]; rw [if_pos hbr], Nat.le_refl _⟩
          · exact ⟨b, by simp only [latestStep]; rw [if_neg hbr],
              Nat.le_of_not_lt hbr⟩
      obtain ⟨c, hc, hrc⟩ := hstep
      rw [hc] at h
      exact Nat.le_trans hrc (latestFold_acc_le t c m h)
    · exact ih _ m h r hx

/-- The latest reading of a non-empty list belongs to the list and has
the maximal date. -/
theorem latestReading_spec (l : List Reading) (m : Reading)
    (h : latestReading l = some m) :
    m ∈ l ∧ ∀ r ∈ l, r.date ≤ m.date := by
  unfold latestReading at h
  constructor
  · rcases latestFold_mem l none m h with hm | hm
    · exact hm
    · simp at hm
  · exact latestFold_max l none m h

/-- A `min`-fold lands on the accumulator or a mapped element. -/
theorem foldl_min_mem (f : Reading → Int) :
    ∀ (l : List Reading) (a : Int),
      l.foldl (fun acc x => min acc (f x)) a ∈ a :: l.map f := by
  intro l
  induction l with
  | nil => intro a; simp
  | cons x t ih =>
    intro a
    simp only [List.foldl_cons, List.map_cons]
    rcases List.mem_cons.mp (ih (min a (f x))) with hm | hm
    · rw [hm]
      rcases le_total a (f x) with h | h
      · rw [min_eq_left h]
        exact List.mem_cons_self _ _
      · rw [min_eq_right h]
        exact List.mem_cons_of_mem _ (List.mem_cons_self _ _)
    · exact List.mem_cons_of_mem _ (List.mem_cons_of_mem _ hm)

/-- A `min`-fold is below the accumulator and every mapped element. -/
theorem foldl_min_le (f : Reading → Int) :
    ∀ (l : List Reading) (a : Int),
      l.foldl (fun acc x => min acc (f x)) a ≤ a ∧
      ∀ x ∈ l, l.foldl (fun acc x => min acc (f x)) a ≤ f x := by
  intro l
  induction l with
  | nil => intro a; exact ⟨le_refl a, by simp⟩
  | cons y t ih =>
    intro a
    simp only [List.foldl_cons]
    obtain ⟨h1, h2⟩ := ih (min a (f y))
    refine ⟨le_trans h1 (min_le_left _ _), ?_⟩
    intro x hx
    rcases List.mem_cons.mp hx with hm | hm
    · subst hm
      exact le_trans h1 (min_le_right _ _)
    · exact h2 x hm

/-- A `max`-fold lands on the accumulator or a mapped element. -/
theorem foldl_max_mem (f : Reading → Int) :
    ∀ (l : List Reading) (a : Int),
      l.foldl (fun acc x => max acc (f x)) a ∈ a :: l.map f := by
  intro l
  induction l with
  | nil => intro a; simp
  | cons x t ih =>
    intro a
    simp only [List.foldl_cons, List.map_cons]
    rcases List.mem_cons.mp (ih (max a (f x))) with hm | hm
    · rw [hm]
      rcases le_total a (f x) with h | h
      · rw [max_eq_right h]
        exact List.mem_cons_of_mem _ (List.mem_cons_self _ _)
      · rw [max_eq_left h]
        exact List.mem_cons_self _ _
    · exact List.mem_cons_of_mem _ (List.mem_cons_of_mem _ hm)

/-- A `max`-fold is above the accumulator and every mapped element. -/
theorem foldl_max_ge (f : Reading → Int) :
    ∀ (l : List Reading) (a : Int),
      a ≤ l.foldl (fun acc x => max acc (f x)) a ∧
      ∀ x ∈ l, f x ≤ l.foldl (fun acc x => max acc (f x)) a := by
  intro l
  induction l with
  | nil => intro a; exact ⟨le_refl a, by simp⟩
  | cons y t ih =>
    intro a
    simp only [List.foldl_cons]
    obtain ⟨h1, h2⟩ := ih (max a (f y))
    refine ⟨le_trans (le_max_left _ _) h1, ?_⟩
    intro x hx
    rcases List.mem_cons.mp hx with hm | hm
    · subst hm
      exact le_trans (le_max_right _ _) h1
    · exact h2 x hm

/-- Membership in a group. -/
theorem mem_groupOf (rs : List Reading) (k : GroupKey) (x : Reading)
    (hx : x ∈ rs) (hk : keyOf x = k) : x ∈ groupOf k rs := by
  unfold groupOf
  rw [List.mem_filter]
  exact ⟨hx, by simpa using hk⟩

/-- Every `query_min` record's value is the group minimum of `value_min`:
it is attained by some group member, and it bounds every sample of the
record's group from below. -/
theorem aggMin_spec (rs : List Reading) (rec : AggRecord) (h : rec ∈ aggMin rs) :
    rec.value ∈ (groupOf rec.key rs).map Reading.value_min ∧
    ∀ x ∈ rs, keyOf x = rec.key → rec.value ≤ x.value_min := by
  unfold aggMin at h
  rw [List.mem_filterMap] at h
  obtain ⟨k, _, hk⟩ := h
  cases hg : groupOf k rs with
  | nil => rw [hg] at hk; exact absurd hk (by simp)
  | cons r rest =>
    rw [hg] at hk
    simp only [Option.some_inj] at hk
    subst hk
    simp only
    constructor
    · rw [hg]
      unfold aggMinValue
      exact foldl_min_mem Reading.value_min rest r.value_min
    · intro x hx hkx
      have hxg : x ∈ groupOf k rs := mem_groupOf rs k x hx hkx
      rw [hg] at hxg
      obtain ⟨h1, h2⟩ := foldl_min_le Reading.value_min rest r.value_min
      rcases List.mem_cons.mp hxg with hm | hm
      · subst hm
        unfold aggMinValue
        exact h1
      · unfold aggMinValue
        exact h2 x hm

/-- Every `query_max` record's value is the group maximum of `value_max`. -/
theorem aggMax_spec (rs : List Reading) (rec : AggRecord) (h : rec ∈ aggMax rs) :
    rec.value ∈ (groupOf rec.key rs).map Reading.value_max ∧
    ∀ x ∈ rs, keyOf x = rec.key → x.value_max ≤ rec.value := by
  unfold aggMax at h
  rw [List.mem_filterMap] at h
  obtain ⟨k, _, hk⟩ := h
  cases hg : groupOf k rs with
  | nil => rw [hg] at hk; exact absurd hk (by simp)
  | cons r rest =>
    rw [hg] at hk
    simp only [Option.some_inj] at hk
    subst hk
    simp only
    constructor
    · rw [hg]
      unfold aggMaxValue
      exact foldl_max_mem Reading.value_max rest r.value_max
    · intro x hx hkx
      have hxg : x ∈ groupOf k rs := mem_groupOf rs k x hx hkx
      rw [hg] at hxg
      obtain ⟨h1, h2⟩ := foldl_max_ge Reading.value_max rest r.value_max
      rcases List.mem_cons.mp hxg with hm | hm
      · subst hm
        unfold aggMaxValue
        exact h1
      · unfold aggMaxValue
        exact h2 x hm

/-- A sample dated exactly at the checkpoint is not scanned. -/
theorem not_scanned_of_eq (c : Time) (rs : List Reading) (r : Reading)
    (hdate : r.date = c) : r ∉ scanned c rs := by
  intro hmem
  unfold scanned at hmem
  rw [List.mem_filter] at hmem
  have := hmem.2
  rw [hdate] at this
  simp at this

/-- A sample dated at or below the checkpoint is not scanned. -/
theorem not_scanned_of_le (c : Time) (rs : List Reading) (r : Reading)
    (hdate : r.date ≤ c) : r ∉ scanned c rs := by
  intro hmem
  unfold scanned at hmem
  rw [List.mem_filter] at hmem
  have h2 := hmem.2
  simp only [decide_eq_true_eq] at h2
  exact absurd (lt_of_lt_of_le h2 hdate) (lt_irrefl _)

/-- Every state reached by later polls has a checkpoint drawn from the
clock values of those polls. -/
theorem runStates_last_time (rs : List Reading) :
    ∀ st nows st2, st2 ∈ runStates st nows rs → st2.last_time ∈ nows := by
  intro st nows
  induction nows generalizing st with
  | nil => intro st2 h; simp [runStates] at h
  | cons n rest ih =>
    intro st2 h
    simp only [runStates] at h
    rcases List.mem_cons.mp h with hm | hm
    · subst hm
      exact List.mem_cons_self _ _
    · exact List.mem_cons_of_mem _ (ih _ st2 hm)

/-- Inserting a freshly tagged key appends an entry. -/
theorem dictInsert_fresh {V : Type} (d : PyDict V) (c : Nat)
    (f : AlarmedChannelFields) (v : V) (h : ∀ kv ∈ d, kv.1.oid < c) :
    dictInsert d ⟨c, f⟩ v = d ++ [(⟨c, f⟩, v)] := by
  induction d with
  | nil => rfl
  | cons kv rest ih =>
    have hk : kv.1.oid < c := h kv (List.mem_cons_self kv rest)
    have hne : pyEq ⟨c, f⟩ kv.1 = false := by
      have hcc : ¬ c = kv.1.oid := by
        intro hh
        rw [hh] at hk
        exact Nat.lt_irrefl _ hk
      simpa [pyEq] using hcc
    have hrest : ∀ kv2 ∈ rest, kv2.1.oid < c :=
      fun kv2 h2 => h kv2 (List.mem_cons_of_mem kv h2)
    simp [dictInsert, hne, ih hrest]

/-- `stepMin` keeps the allocation bound, never lowers the counter, and
never drops an entry of either dict. -/
theorem stepMin_sound (rec : AggRecord) (ch : CatalogRow) (acc : CompareAcc)
    (h : accBound acc) :
    accBound (stepMin rec acc ch) ∧ acc.ctr ≤ (stepMin rec acc ch).ctr ∧
    (∀ kv ∈ acc.alarm_min, kv ∈ (stepMin rec acc ch).alarm_min) ∧
    (∀ kv ∈ acc.alarm_max, kv ∈ (stepMin rec acc ch).alarm_max) := by
  by_cases hj : joinMatch ch rec = true
  · by_cases hlo : rec.value ≤ ch.range_min
    · simp only [stepMin, hj, if_true, if_pos hlo]
      rw [dictInsert_fresh acc.alarm_min acc.ctr (rowData ch) _ h.1]
      refine ⟨⟨?_, ?_⟩, Nat.le_succ _, ?_, ?_⟩
      · intro kv hkv
        rcases List.mem_append.mp hkv with hm | hm
        · exact Nat.lt_trans (h.1 kv hm) (Nat.lt_succ_self _)
        · simp only [List.mem_singleton] at hm
          subst hm
          exact Nat.lt_succ_self _
      · intro kv hkv
        exact Nat.lt_trans (h.2 kv hkv) (Nat.lt_succ_self _)
      · intro kv hkv
        exact List.mem_append.mpr (Or.inl hkv)
      · intro kv hkv
        exact hkv
    · by_cases hhi : ch.range_max ≤ rec.value
      · simp only [stepMin, hj, if_true, if_neg hlo, if_pos hhi]
        rw [dictInsert_fresh acc.alarm_max acc.ctr (rowData ch) _ h.2]
        refine ⟨⟨?_, ?_⟩, Nat.le_succ _, ?_, ?_⟩
        · intro kv hkv
          exact Nat.lt_trans (h.1 kv hkv) (Nat.lt_succ_self _)
        · intro kv hkv
          rcases List.mem_append.mp hkv with hm | hm
          · exact Nat.lt_trans (h.2 kv hm) (Nat.lt_succ_self _)
          · simp only [List.mem_singleton] at hm
            subst hm
            exact Nat.lt_succ_self _
        · intro kv hkv
          exact hkv
        · intro kv hkv
          exact List.mem_append.mpr (Or.inl hkv)
      · simp only [stepMin, hj, if_true, if_neg hlo, if_neg hhi]
        exact ⟨h, Nat.le_refl _, fun kv hkv => hkv, fun kv hkv => hkv⟩
  · have hs : stepMin rec acc ch = acc := by
      simp [stepMin, hj]
    rw [hs]
    exact ⟨h, Nat.le_refl _, fun kv hkv => hkv, fun kv hkv => hkv⟩

/-- `stepMax` keeps the allocation bound, never lowers the counter, and
never drops an entry of either dict. -/
theorem stepMax_sound (rec : AggRecord) (ch : CatalogRow) (acc : CompareAcc)
    (h : accBound acc) :
    accBound (stepMax rec acc ch) ∧ acc.ctr ≤ (stepMax rec acc ch).ctr ∧
    (∀ kv ∈ acc.alarm_min, kv ∈ (stepMax rec acc ch).alarm_min) ∧
    (∀ kv ∈ acc.alarm_max, kv ∈ (stepMax rec acc ch).alarm_max) := by
  by_cases hj : joinMatch ch rec = true
  · by_cases hhi : ch.range_max ≤ rec.value
    · simp only [stepMax, hj, if_true, if_pos hhi]
      rw [dictInsert_fresh acc.alarm_max acc.ctr (rowData ch) _ h.2]
      refine ⟨⟨?_, ?_⟩, Nat.le_succ _, ?_, ?_⟩
      · intro kv hkv
        exact Nat.lt_trans (h.1 kv hkv) (Nat.lt_succ_self _)
      · intro kv hkv
        rcases List.mem_append.mp hkv with hm | hm
        · exact Nat.lt_trans (h.2 kv hm) (Nat.lt_succ_self _)
        · simp only [List.mem_singleton] at hm
          subst hm
          exact Nat.lt_succ_self _
      · intro kv hkv
        exact hkv
      · intro kv hkv
        exact List.mem_append.mpr (Or.inl hkv)
    · simp only [stepMax, hj, if_true, if_neg hhi]
      exact ⟨h, Nat.le_refl _, fun kv hkv => hkv, fun kv hkv => hkv⟩
  · have hs : stepMax rec acc ch = acc := by
      simp [stepMax, hj]
    rw [hs]
    exact ⟨h, Nat.le_refl _, fun kv hkv => hkv, fun kv hkv => hkv⟩

/-- The channel fold of a `query_min` record is sound in the same sense. -/
theorem foldMin_sound (rec : AggRecord) (cat : List CatalogRow) :
    ∀ acc, accBound acc →
      accBound (cat.foldl (stepMin rec) acc) ∧
      acc.ctr ≤ (cat.foldl (stepMin rec) acc).ctr ∧
      (∀ kv ∈ acc.alarm_min, kv ∈ (cat.foldl (stepMin rec) acc).alarm_min) ∧
      (∀ kv ∈ acc.alarm_max, kv ∈ (cat.foldl (stepMin rec) acc).alarm_max) := by
  induction cat with
  | nil => intro acc h; exact ⟨h, Nat.le_refl _, fun kv hkv => hkv, fun kv hkv => hkv⟩
  | cons c rest ih =>
    intro acc h
    obtain ⟨hb, hc, hm1, hm2⟩ := stepMin_sound rec c acc h
    obtain ⟨hb2, hc2, hm12, hm22⟩ := ih (stepMin rec acc c) hb
    exact ⟨hb2, Nat.le_trans hc hc2,
      fun kv hkv => hm12 kv (hm1 kv hkv),
      fun kv hkv => hm22 kv (hm2 kv hkv)⟩

/-- The channel fold of a `query_max` record is sound in the same sense. -/
theorem foldMax_sound (rec : AggRecord) (cat : List CatalogRow) :
    ∀ acc, accBound acc →
      accBound (cat.foldl (stepMax rec) acc) ∧
      acc.ctr ≤ (cat.foldl (stepMax rec) acc).ctr ∧
      (∀ kv ∈ acc.alarm_min, kv ∈ (cat.foldl (stepMax rec) acc).alarm_min) ∧
      (∀ kv ∈ acc.alarm_max, kv ∈ (cat.foldl (stepMax rec) acc).alarm_max) := by
  induction cat with
  | nil => intro acc h; exact ⟨h, Nat.le_refl _, fun kv hkv => hkv, fun kv hkv => hkv⟩
  | cons c rest ih =>
    intro acc h
    obtain ⟨hb, hc, hm1, hm2⟩ := stepMax_sound rec c acc h
    obtain ⟨hb2, hc2, hm12, hm22⟩ := ih (stepMax rec acc c) hb
    exact ⟨hb2, Nat.le_trans hc hc2,
      fun kv hkv => hm12 kv (hm1 kv hkv),
      fun kv hkv => hm22 kv (hm2 kv hkv)⟩

/-- The record fold of the min pass is sound in the same sense. -/
theorem foldRecsMin_sound (cat : List CatalogRow) (recs : List AggRecord) :
    ∀ acc, accBound acc →
      accBound (recs.foldl (fun a rec => cat.foldl (stepMin rec) a) acc) ∧
      (∀ kv ∈ acc.alarm_min,
        kv ∈ (recs.foldl (fun a rec => cat.foldl (stepMin rec) a) acc).alarm_min) ∧
      (∀ kv ∈ acc.alarm_max,
        kv ∈ (recs.foldl (fun a rec => cat.foldl (stepMin rec) a) acc).alarm_max) := by
  induction recs with
  | nil => intro acc h; exact ⟨h, fun kv hkv => hkv, fun kv hkv => hkv⟩
  | cons rec rest ih =>
    intro acc h
    obtain ⟨hb, _, hm1, hm2⟩ := foldMin_sound rec cat acc h
    obtain ⟨hb2, hm12, hm22⟩ := ih (cat.foldl (stepMin rec) acc) hb
    exact ⟨hb2, fun kv hkv => hm12 kv (hm1 kv hkv),
      fun kv hkv => hm22 kv (hm2 kv hkv)⟩

/-- The record fold of the max pass is sound in the same sense. -/
theorem foldRecsMax_sound (cat : List CatalogRow) (recs : List AggRecord) :
    ∀ acc, accBound acc →
      accBound (recs.foldl (fun a rec => cat.foldl (stepMax rec) a) acc) ∧
      (∀ kv ∈ acc.alarm_min,
        kv ∈ (recs.foldl (fun a rec => cat.foldl (stepMax rec) a) acc).alarm_min) ∧
      (∀ kv ∈ acc.alarm_max,
        kv ∈ (recs.foldl (fun a rec => cat.foldl (stepMax rec) a) acc).alarm_max) := by
  induction recs with
  | nil => intro acc h; exact ⟨h, fun kv hkv => hkv, fun kv hkv => hkv⟩
  | cons rec rest ih =>
    intro acc h
    obtain ⟨hb, _, hm1, hm2⟩ := foldMax_sound rec cat acc h
    obtain ⟨hb2, hm12, hm22⟩ := ih (cat.foldl (stepMax rec) acc) hb
    exact ⟨hb2, fun kv hkv => hm12 kv (hm1 kv hkv),
      fun kv hkv => hm22 kv (hm2 kv hkv)⟩

/-- Every key of `dictInsert d k v` is a key of `d` or is `k`. -/
theorem dictInsert_keys {V : Type} (d : PyDict V) (k : AlarmedChannelData)
    (v : V) : ∀ kv ∈ dictInsert d k v, (∃ kv2 ∈ d, kv2.1 = kv.1) ∨ kv.1 = k := by
  induction d with
  | nil =>
    intro kv hkv
    simp only [dictInsert, List.mem_singleton] at hkv
    subst hkv
    exact Or.inr rfl
  | cons k2v2 rest ih =>
    intro kv hkv
    by_cases hp : pyEq k k2v2.1 = true
    · simp only [dictInsert, hp, if_true, List.mem_cons] at hkv
      rcases hkv with hkv | hkv
      · subst hkv
        exact Or.inl ⟨k2v2, List.mem_cons_self _ _, rfl⟩
      · exact Or.inl ⟨kv, List.mem_cons_of_mem _ hkv, rfl⟩
    · simp only [Bool.not_eq_true] at hp
      simp only [dictInsert, hp, Bool.false_eq_true, if_false, List.mem_cons] at hkv
      rcases hkv with hkv | hkv
      · subst hkv
        exact Or.inl ⟨k2v2, List.mem_cons_self _ _, rfl⟩
      · rcases ih kv hkv with ⟨kv2, hm, he⟩ | he
        · exact Or.inl ⟨kv2, List.mem_cons_of_mem _ hm, he⟩
        · exact Or.inr he

/-- Equal constructed field data forces equal join columns and ranges. -/
theorem rowData_inj (ch ch2 : CatalogRow) (h : rowData ch2 = rowData ch) :
    ch2.channel_cnr_id = ch.channel_cnr_id ∧ ch2.site_cnr_id = ch.site_cnr_id ∧
    ch2.range_min = ch.range_min ∧ ch2.range_max = ch.range_max := by
  refine ⟨congrArg AlarmedChannelFields.cnr_channel_id h,
    congrArg AlarmedChannelFields.cnr_site_id h,
    congrArg AlarmedChannelFields.range_min h,
    congrArg AlarmedChannelFields.range_max h⟩

/-- The join condition transfers along equal join columns. -/
theorem joinMatch_transfer (ch ch2 : CatalogRow) (rec : AggRecord)
    (h : rowData ch2 = rowData ch) (hj : joinMatch ch2 rec = true) :
    joinMatch ch rec = true := by
  obtain ⟨h1, h2, _, _⟩ := rowData_inj ch ch2 h
  unfold joinMatch at hj ⊢
  rw [← h1, ← h2]
  exact hj

/-- If every record of the min pass that joins `ch` is strictly in range,
no step of the min pass can create an entry whose data is `rowData ch`. -/
theorem stepMin_avoid (ch : CatalogRow) (rec : AggRecord) (ch2 : CatalogRow)
    (acc : CompareAcc)
    (hP1 : ∀ kv ∈ acc.alarm_min, kv.1.data ≠ rowData ch)
    (hP2 : ∀ kv ∈ acc.alarm_max, kv.1.data ≠ rowData ch)
    (hrec : joinMatch ch rec = true →
      ch.range_min < rec.value ∧ rec.value < ch.range_max) :
    (∀ kv ∈ (stepMin rec acc ch2).alarm_min, kv.1.data ≠ rowData ch) ∧
    (∀ kv ∈ (stepMin rec acc ch2).alarm_max, kv.1.data ≠ rowData ch) := by
  by_cases hj : joinMatch ch2 rec = true
  · by_cases hlo : rec.value ≤ ch2.range_min
    · simp only [stepMin, hj, if_true, if_pos hlo]
      refine ⟨?_, hP2⟩
      intro kv hkv he
      rcases dictInsert_keys acc.alarm_min ⟨acc.ctr, rowData ch2⟩ _ kv hkv with
        ⟨kv2, hm, hk⟩ | hk
      · exact hP1 kv2 hm (hk.symm ▸ he)
      · rw [hk] at he
        have hdata : rowData ch2 = rowData ch := he
        have hjch : joinMatch ch rec = true := joinMatch_transfer ch ch2 rec hdata hj
        obtain ⟨_, _, hrmin, _⟩ := rowData_inj ch ch2 hdata
        have hin := hrec hjch
        rw [hrmin] at hlo
        exact absurd (lt_of_lt_of_le hin.1 hlo) (lt_irrefl _)
    · by_cases hhi : ch2.range_max ≤ rec.value
      · simp only [stepMin, hj, if_true, if_neg hlo, if_pos hhi]
        refine ⟨hP1, ?_⟩
        intro kv hkv he
        rcases dictInsert_keys acc.alarm_max ⟨acc.ctr, rowData ch2⟩ _ kv hkv with
          ⟨kv2, hm, hk⟩ | hk
        · exact hP2 kv2 hm (hk.symm ▸ he)
        · rw [hk] at he
          have hdata : rowData ch2 = rowData ch := he
          have hjch : joinMatch ch rec = true := joinMatch_transfer ch ch2 rec hdata hj
          obtain ⟨_, _, _, hrmax⟩ := rowData_inj ch ch2 hdata
          have hin := hrec hjch
          rw [hrmax] at hhi
          exact absurd (lt_of_le_of_lt hhi hin.2) (lt_irrefl _)
      · have hs : stepMin rec acc ch2 = acc := by
          simp [stepMin, hj, hlo, hhi]
        rw [hs]
        exact ⟨hP1, hP2⟩
  · have hs : stepMin rec acc ch2 = acc := by
      simp [stepMin, hj]
    rw [hs]
    exact ⟨hP1, hP2⟩

/-- The max-pass analogue of `stepMin_avoid`. -/
theorem stepMax_avoid (ch : CatalogRow) (rec : AggRecord) (ch2 : CatalogRow)
    (acc : CompareAcc)
    (hP1 : ∀ kv ∈ acc.alarm_min, kv.1.data ≠ rowData ch)
    (hP2 : ∀ kv ∈ acc.alarm_max, kv.1.data ≠ rowData ch)
    (hrec : joinMatch ch rec = true →
      ch.range_min < rec.value ∧ rec.value < ch.range_max) :
    (∀ kv ∈ (stepMax rec acc ch2).alarm_min, kv.1.data ≠ rowData ch) ∧
    (∀ kv ∈ (stepMax rec acc ch2).alarm_max, kv.1.data ≠ rowData ch) := by
  by_cases hj : joinMatch ch2 rec = true
  · by_cases hhi : ch2.range_max ≤ rec.value
    · simp only [stepMax, hj, if_true, if_pos hhi]
      refine ⟨hP1, ?_⟩
      intro kv hkv he
      rcases dictInsert_keys acc.alarm_max ⟨acc.ctr, rowData ch2⟩ _ kv hkv with
        ⟨kv2, hm, hk⟩ | hk
      · exact hP2 kv2 hm (hk.symm ▸ he)
      · rw [hk] at he
        have hdata : rowData ch2 = rowData ch := he
        have hjch : joinMatch ch rec = true := joinMatch_transfer ch ch2 rec hdata hj
        obtain ⟨_, _, _, hrmax⟩ := rowData_inj ch ch2 hdata
        have hin := hrec hjch
        rw [hrmax] at hhi
        exact absurd (lt_of_le_of_lt hhi hin.2) (lt_irrefl _)
    · have hs : stepMax rec acc ch2 = acc := by
        simp [stepMax, hj, hhi]
      rw [hs]
      exact ⟨hP1, hP2⟩
  · have hs : stepMax rec acc ch2 = acc := by
      simp [stepMax, hj]
    rw [hs]
    exact ⟨hP1, hP2⟩

/-- No channel fold of a strictly-in-range min record creates an entry
with data `rowData ch`. -/
theorem foldMin_avoid (ch : CatalogRow) (rec : AggRecord) (cat : List CatalogRow)
    (hrec : joinMatch ch rec = true →
      ch.range_min < rec.value ∧ rec.value < ch.range_max) :
    ∀ acc, (∀ kv ∈ acc.alarm_min, kv.1.data ≠ rowData ch) →
      (∀ kv ∈ acc.alarm_max, kv.1.data ≠ rowData ch) →
      (∀ kv ∈ (cat.foldl (stepMin rec) acc).alarm_min, kv.1.data ≠ rowData ch) ∧
      (∀ kv ∈ (cat.foldl (stepMin rec) acc).alarm_max, kv.1.data ≠ rowData ch) := by
  induction cat with
  | nil => intro acc h1 h2; exact ⟨h1, h2⟩
  | cons c rest ih =>
    intro acc h1 h2
    obtain ⟨h1s, h2s⟩ := stepMin_avoid ch rec c acc h1 h2 hrec
    exact ih (stepMin rec acc c) h1s h2s

/-- No channel fold of a strictly-in-range max record creates an entry
with data `rowData ch`. -/
theorem foldMax_avoid (ch : CatalogRow) (rec : AggRecord) (cat : List CatalogRow)
    (hrec : joinMatch ch rec = true →
      ch.range_min < rec.value ∧ rec.value < ch.range_max) :
    ∀ acc, (∀ kv ∈ acc.alarm_min, kv.1.data ≠ rowData ch) →
      (∀ kv ∈ acc.alarm_max, kv.1.data ≠ rowData ch) →
      (∀ kv ∈ (cat.foldl (stepMax rec) acc).alarm_min, kv.1.data ≠ rowData ch) ∧
      (∀ kv ∈ (cat.foldl (stepMax rec) acc).alarm_max, kv.1.data ≠ rowData ch) := by
  induction cat with
  | nil => intro acc h1 h2; exact ⟨h1, h2⟩
  | cons c rest ih =>
    intro acc h1 h2
    obtain ⟨h1s, h2s⟩ := stepMax_avoid ch rec c acc h1 h2 hrec
    exact ih (stepMax rec acc c) h1s h2s

/-- The whole min pass avoids strictly-in-range channels. -/
theorem foldRecsMin_avoid (ch : CatalogRow) (cat : List CatalogRow)
    (recs : List AggRecord)
    (hrecs : ∀ rec ∈ recs, joinMatch ch rec = true →
      ch.range_min < rec.value ∧ rec.value < ch.range_max) :
    ∀ acc, (∀ kv ∈ acc.alarm_min, kv.1.data ≠ rowData ch) →
      (∀ kv ∈ acc.alarm_max, kv.1.data ≠ rowData ch) →
      (∀ kv ∈ (recs.foldl (fun a rec => cat.foldl (stepMin rec) a) acc).alarm_min,
        kv.1.data ≠ rowData ch) ∧
      (∀ kv ∈ (recs.foldl (fun a rec => cat.foldl (stepMin rec) a) acc).alarm_max,
        kv.1.data ≠ rowData ch) := by
  induction recs with
  | nil => intro acc h1 h2; exact ⟨h1, h2⟩
  | cons rec rest ih =>
    intro acc h1 h2
    have hrec := hrecs rec (List.mem_cons_self _ _)
    obtain ⟨h1s, h2s⟩ := foldMin_avoid ch rec cat hrec acc h1 h2
    exact ih (fun r hr => hrecs r (List.mem_cons_of_mem _ hr))
      (cat.foldl (stepMin rec) acc) h1s h2s

/-- The whole max pass avoids strictly-in-range channels. -/
theorem foldRecsMax_avoid (ch : CatalogRow) (cat : List CatalogRow)
    (recs : List AggRecord)
    (hrecs : ∀ rec ∈ recs, joinMatch ch rec = true →
      ch.range_min < rec.value ∧ rec.value < ch.range_max) :
    ∀ acc, (∀ kv ∈ acc.alarm_min, kv.1.data ≠ rowData ch) →
      (∀ kv ∈ acc.alarm_max, kv.1.data ≠ rowData ch) →
      (∀ kv ∈ (recs.foldl (fun a rec => cat.foldl (stepMax rec) a) acc).alarm_min,
        kv.1.data ≠ rowData ch) ∧
      (∀ kv ∈ (recs.foldl (fun a rec => cat.foldl (stepMax rec) a) acc).alarm_max,
        kv.1.data ≠ rowData ch) := by
  induction recs with
  | nil => intro acc h1 h2; exact ⟨h1, h2⟩
  | cons rec rest ih =>
    intro acc h1 h2
    have hrec := hrecs rec (List.mem_cons_self _ _)
    obtain ⟨h1s, h2s⟩ := foldMax_avoid ch rec cat hrec acc h1 h2
    exact ih (fun r hr => hrecs r (List.mem_cons_of_mem _ hr))
      (cat.foldl (stepMax rec) acc) h1s h2s

/-- Processing a joining min record with `value <= range_min` leaves a
min-breach entry for the matched catalog row. -/
theorem foldMin_insert_minbreach (rec : AggRecord) (ch : CatalogRow)
    (cat : List CatalogRow) (hmemc : ch ∈ cat)
    (hj : joinMatch ch rec = true) (hlo : rec.value ≤ ch.range_min) :
    ∀ acc, accBound acc →
      ∃ kv ∈ (cat.foldl (stepMin rec) acc).alarm_min,
        kv.1.data = rowData ch ∧ kv.2 = (rec.value, rec.date) := by
  induction cat with
  | nil => intro acc _; simp at hmemc
  | cons c rest ih =>
    intro acc hb
    by_cases hc : c = ch
    · subst hc
      have hstep : (stepMin rec acc c).alarm_min =
          acc.alarm_min ++ [(⟨acc.ctr, rowData c⟩, (rec.value, rec.date))] := by
        simp only [stepMin, hj, if_true, if_pos hlo]
        exact dictInsert_fresh acc.alarm_min acc.ctr (rowData c) _ hb.1
      have hbs : accBound (stepMin rec acc c) := (stepMin_sound rec c acc hb).1
      obtain ⟨_, _, hm1, _⟩ := foldMin_sound rec rest (stepMin rec acc c) hbs
      refine ⟨(⟨acc.ctr, rowData c⟩, (rec.value, rec.date)), ?_, rfl, rfl⟩
      simp only [List.foldl_cons]
      apply hm1
      rw [hstep]
      exact List.mem_append.mpr (Or.inr (List.mem_singleton.mpr rfl))
    · have hmem2 : ch ∈ rest := by
        rcases List.mem_cons.mp hmemc with hm | hm
        · exact absurd hm.symm hc
        · exact hm
      simp only [List.foldl_cons]
      exact ih hmem2 (stepMin rec acc c) (stepMin_sound rec c acc hb).1

/-- Processing a joining min record with `value > range_min` and
`value >= range_max` leaves a max-breach entry for the matched row. -/
theorem foldMin_insert_maxbreach (rec : AggRecord) (ch : CatalogRow)
    (cat : List CatalogRow) (hmemc : ch ∈ cat)
    (hj : joinMatch ch rec = true) (hlo : ¬ rec.value ≤ ch.range_min)
    (hhi : ch.range_max ≤ rec.value) :
    ∀ acc, accBound acc →
      ∃ kv ∈ (cat.foldl (stepMin rec) acc).alarm_max,
        kv.1.data = rowData ch ∧ kv.2 = (rec.value, rec.date) := by
  induction cat with
  | nil => intro acc _; simp at hmemc
  | cons c rest ih =>
    intro acc hb
    by_cases hc : c = ch
    · subst hc
      have hstep : (stepMin rec acc c).alarm_max =
          acc.alarm_max ++ [(⟨acc.ctr, rowData c⟩, (rec.value, rec.date))] := by
        simp only [stepMin, hj, if_true, if_neg hlo, if_pos hhi]
        exact dictInsert_fresh acc.alarm_max acc.ctr (rowData c) _ hb.2
      have hbs : accBound (stepMin rec acc c) := (stepMin_sound rec c acc hb).1
      obtain ⟨_, _, _, hm2⟩ := foldMin_sound rec rest (stepMin rec acc c) hbs
      refine ⟨(⟨acc.ctr, rowData c⟩, (rec.value, rec.date)), ?_, rfl, rfl⟩
      simp only [List.foldl_cons]
      apply hm2
      rw [hstep]
      exact List.mem_append.mpr (Or.inr (List.mem_singleton.mpr rfl))
    · have hmem2 : ch ∈ rest := by
        rcases List.mem_cons.mp hmemc with hm | hm
        · exact absurd hm.symm hc
        · exact hm
      simp only [List.foldl_cons]
      exact ih hmem2 (stepMin rec acc c) (stepMin_sound rec c acc hb).1

/-- The min pass records every joining `value <= range_min` record as a
min breach of the matched catalog row. -/
theorem foldRecsMin_exists_min (cat : List CatalogRow) (recs : List AggRecord)
    (rec : AggRecord) (ch : CatalogRow) (hrec : rec ∈ recs) (hmemc : ch ∈ cat)
    (hj : joinMatch ch rec = true) (hlo : rec.value ≤ ch.range_min) :
    ∀ acc, accBound acc →
      ∃ kv ∈ (recs.foldl (fun a r => cat.foldl (stepMin r) a) acc).alarm_min,
        kv.1.data = rowData ch ∧ kv.2 = (rec.value, rec.date) := by
  induction recs with
  | nil => intro acc _; simp at hrec
  | cons r rest ih =>
    intro acc hb
    simp only [List.foldl_cons]
    rcases List.mem_cons.mp hrec with hm | hm
    · subst hm
      obtain ⟨kv, hkv, hd, hv⟩ := foldMin_insert_minbreach rec ch cat hmemc hj hlo acc hb
      have hbs := (foldMin_sound rec cat acc hb).1
      obtain ⟨_, hm1, _⟩ := foldRecsMin_sound cat rest (cat.foldl (stepMin rec) acc) hbs
      exact ⟨kv, hm1 kv hkv, hd, hv⟩
    · exact ih hm (cat.foldl (stepMin r) acc) (foldMin_sound r cat acc hb).1

/-- The min pass records every joining `value > range_min`,
`value >= range_max` record as a max breach of the matched catalog row. -/
theorem foldRecsMin_exists_max (cat : List CatalogRow) (recs : List AggRecord)
    (rec : AggRecord) (ch : CatalogRow) (hrec : rec ∈ recs) (hmemc : ch ∈ cat)
    (hj : joinMatch ch rec = true) (hlo : ¬ rec.value ≤ ch.range_min)
    (hhi : ch.range_max ≤ rec.value) :
    ∀ acc, accBound acc →
      ∃ kv ∈ (recs.foldl (fun a r => cat.foldl (stepMin r) a) acc).alarm_max,
        kv.1.data = rowData ch ∧ kv.2 = (rec.value, rec.date) := by
  induction recs with
  | nil => intro acc _; simp at hrec
  | cons r rest ih =>
    intro acc hb
    simp only [List.foldl_cons]
    rcases List.mem_cons.mp hrec with hm | hm
    · subst hm
      obtain ⟨kv, hkv, hd, hv⟩ :=
        foldMin_insert_maxbreach rec ch cat hmemc hj hlo hhi acc hb
      have hbs := (foldMin_sound rec cat acc hb).1
      obtain ⟨_, _, hm2⟩ := foldRecsMin_sound cat rest (cat.foldl (stepMin rec) acc) hbs
      exact ⟨kv, hm2 kv hkv, hd, hv⟩
    · exact ih hm (cat.foldl (stepMin r) acc) (foldMin_sound r cat acc hb).1

/-- Identity comparison transfers along an identity equation. -/
theorem pyEq_trans_left (a b c : AlarmedChannelData) (h : pyEq a b = true) :
    pyEq a c = pyEq b c := by
  have he : a.oid = b.oid := by simpa [pyEq] using h
  unfold pyEq
  rw [he]

/-- In a pairwise identity-distinct list, identity-equal members are the
same element. -/
theorem pairwiseDistinct_eq (l : List AlarmedChannelData)
    (hd : pairwiseDistinct l = true) (a b : AlarmedChannelData)
    (ha : a ∈ l) (hb : b ∈ l) (hab : pyEq a b = true) : a = b := by
  induction l with
  | nil => simp at ha
  | cons x rest ih =>
    obtain ⟨hx, hrest⟩ := pairwiseDistinct_head x rest hd
    rcases List.mem_cons.mp ha with ha2 | ha2 <;>
      rcases List.mem_cons.mp hb with hb2 | hb2
    · rw [ha2, hb2]
    · subst ha2
      have := hx b hb2
      rw [this] at hab
      exact absurd hab (by simp)
    · subst hb2
      have h2 : pyEq b a = true := by rw [pyEq_comm] at hab; exact hab
      have := hx a ha2
      rw [this] at h2
      exact absurd h2 (by simp)
    · exact ih hrest ha2 hb2

/-- Containment in an object-keyed dict, element-wise. -/
theorem dictContains_iff {V : Type} (d : PyDict V) (c : AlarmedChannelData) :
    dictContains d c = true ↔ ∃ kv ∈ d, pyEq c kv.1 = true := by
  induction d with
  | nil => simp [dictContains, dictLookup]
  | cons kv rest ih =>
    by_cases hp : pyEq c kv.1 = true
    · simp only [dictContains, dictLookup, hp, if_true, Option.isSome_some,
        true_iff]
      exact ⟨kv, List.mem_cons_self _ _, hp⟩
    · simp only [Bool.not_eq_true] at hp
      simp only [dictContains, dictLookup, hp, Bool.false_eq_true, if_false]
      rw [show (Option.isSome (dictLookup rest c) = true) =
        (dictContains rest c = true) from rfl, ih]
      constructor
      · rintro ⟨kv2, hm, hpe⟩
        exact ⟨kv2, List.mem_cons_of_mem _ hm, hpe⟩
      · rintro ⟨kv2, hm, hpe⟩
        rcases List.mem_cons.mp hm with hm2 | hm2
        · subst hm2
          rw [hp] at hpe
          exact absurd hpe (by simp)
        · exact ⟨kv2, hm2, hpe⟩

/-- Inserting an absent key appends the new entry. -/
theorem dictInsert_of_not_contains {V : Type} (d : PyDict V)
    (k : AlarmedChannelData) (v : V) (h : dictContains d k = false) :
    dictInsert d k v = d ++ [(k, v)] := by
  induction d with
  | nil => rfl
  | cons kv rest ih =>
    have hne : pyEq k kv.1 = false := by
      by_contra hc
      simp only [Bool.not_eq_false] at hc
      have : dictContains (kv :: rest) k = true :=
        (dictContains_iff _ _).mpr ⟨kv, List.mem_cons_self _ _, hc⟩
      rw [this] at h
      exact absurd h (by simp)
    have hrest : dictContains rest k = false := by
      by_contra hc
      simp only [Bool.not_eq_false] at hc
      obtain ⟨kv2, hm, hpe⟩ := (dictContains_iff _ _).mp hc
      have : dictContains (kv :: rest) k = true :=
        (dictContains_iff _ _).mpr ⟨kv2, List.mem_cons_of_mem _ hm, hpe⟩
      rw [this] at h
      exact absurd h (by simp)
    simp [dictInsert, hne, ih hrest]

/-- Erasure keeps only entries of the original dict. -/
theorem mem_of_mem_dictErase {V : Type} (d : PyDict V)
    (k : AlarmedChannelData) (kv : AlarmedChannelData × V)
    (h : kv ∈ dictErase d k) : kv ∈ d := by
  induction d with
  | nil => simp [dictErase] at h
  | cons k2v2 rest ih =>
    by_cases hp : pyEq k k2v2.1 = true
    · simp only [dictErase, hp, if_true] at h
      exact List.mem_cons_of_mem _ h
    · simp only [Bool.not_eq_true] at hp
      simp only [dictErase, hp, Bool.false_eq_true, if_false,
        List.mem_cons] at h
      rcases h with h | h
      · exact h ▸ List.mem_cons_self _ _
      · exact List.mem_cons_of_mem _ (ih h)

/-- Erasure keeps every entry whose key the erased key does not match. -/
theorem mem_dictErase_of_mem {V : Type} (d : PyDict V)
    (k : AlarmedChannelData) (kv : AlarmedChannelData × V)
    (hm : kv ∈ d) (hne : pyEq k kv.1 = false) : kv ∈ dictErase d k := by
  induction d with
  | nil => simp at hm
  | cons k2v2 rest ih =>
    rcases List.mem_cons.mp hm with hm2 | hm2
    · subst hm2
      have hp : pyEq k kv.1 = false := hne
      simp only [dictErase, hp, Bool.false_eq_true, if_false]
      exact List.mem_cons_self _ _
    · by_cases hp : pyEq k k2v2.1 = true
      · simp only [dictErase, hp, if_true]
        exact hm2
      · simp only [Bool.not_eq_true] at hp
        simp only [dictErase, hp, Bool.false_eq_true, if_false]
        exact List.mem_cons_of_mem _ (ih hm2)

/-- With pairwise-distinct keys, a survivor of erasure is not
identity-equal to the erased key. -/
theorem not_pyEq_of_mem_dictErase {V : Type} (d : PyDict V)
    (k : AlarmedChannelData)
    (hd : pairwiseDistinct (d.map Prod.fst) = true)
    (kv : AlarmedChannelData × V) (hm : kv ∈ dictErase d k)
    (hc : dictContains d k = true) : pyEq k kv.1 = false := by
  induction d with
  | nil => simp [dictErase] at hm
  | cons k2v2 rest ih =>
    simp only [List.map_cons] at hd
    obtain ⟨hx, hrest⟩ := pairwiseDistinct_head k2v2.1 (rest.map Prod.fst) hd
    by_cases hp : pyEq k k2v2.1 = true
    · simp only [dictErase, hp, if_true] at hm
      by_contra hcon
      simp only [Bool.not_eq_false] at hcon
      have hkv : pyEq k2v2.1 kv.1 = true := by
        rw [← pyEq_trans_left k k2v2.1 kv.1 hp]
        exact hcon
      have : pyEq k2v2.1 kv.1 = false :=
        hx kv.1 (List.mem_map_of_mem Prod.fst hm)
      rw [this] at hkv
      exact absurd hkv (by simp)
    · simp only [Bool.not_eq_true] at hp
      simp only [dictErase, hp, Bool.false_eq_true, if_false,
        List.mem_cons] at hm
      rcases hm with hm | hm
      · rw [hm]
        exact hp
      · have hcrest : dictContains rest k = true := by
          obtain ⟨kv2, hm2, hpe⟩ := (dictContains_iff _ _).mp hc
          rcases List.mem_cons.mp hm2 with hm3 | hm3
          · subst hm3
            rw [hp] at hpe
            exact absurd hpe (by simp)
          · exact (dictContains_iff _ _).mpr ⟨kv2, hm3, hpe⟩
        exact ih hrest hm hcrest

/-- `pairwiseDistinct` survives erasure of an entry. -/
theorem pairwiseDistinct_dictErase {V : Type} (d : PyDict V)
    (k : AlarmedChannelData)
    (hd : pairwiseDistinct (d.map Prod.fst) = true) :
    pairwiseDistinct ((dictErase d k).map Prod.fst) = true := by
  induction d with
  | nil => simp [dictErase, pairwiseDistinct]
  | cons k2v2 rest ih =>
    simp only [List.map_cons] at hd
    obtain ⟨hx, hrest⟩ := pairwiseDistinct_head k2v2.1 (rest.map Prod.fst) hd
    by_cases hp : pyEq k k2v2.1 = true
    · simp only [dictErase, hp, if_true]
      exact hrest
    · simp only [Bool.not_eq_true] at hp
      simp only [dictErase, hp, Bool.false_eq_true, if_false, List.map_cons]
      simp only [pairwiseDistinct, Bool.and_eq_true, Bool.not_eq_true']
      refine ⟨?_, ih hrest⟩
      by_contra hcon
      simp only [Bool.not_eq_false] at hcon
      simp only [pyMem, List.any_eq_true] at hcon
      obtain ⟨key, hkm, hke⟩ := hcon
      obtain ⟨kv2, hkv2, hkey⟩ := List.mem_map.mp hkm
      have : pyEq k2v2.1 key = false := by
        have hmem2 : kv2 ∈ rest := mem_of_mem_dictErase rest k kv2 hkv2
        have := hx kv2.1 (List.mem_map_of_mem Prod.fst hmem2)
        rw [hkey] at this
        exact this
      rw [this] at hke
      exact absurd hke (by simp)

/-- Lookup after insert at the inserted key. -/
theorem intLookup_intInsert_self {V : Type} (d : IntDict V) (k : Int) (v : V) :
    intLookup (intInsert d k v) k = some v := by
  induction d with
  | nil => simp [intInsert, intLookup]
  | cons kv rest ih =>
    by_cases h : k = kv.1
    · simp [intInsert, intLookup, h]
    · simp [intInsert, intLookup, h, ih]

/-- Lookup after insert at another key. -/
theorem intLookup_intInsert_other {V : Type} (d : IntDict V) (k k2 : Int)
    (v : V) (h : k2 ≠ k) : intLookup (intInsert d k v) k2 = intLookup d k2 := by
  induction d with
  | nil => simp [intInsert, intLookup, h]
  | cons kv rest ih =>
    by_cases h2 : k = kv.1
    · subst h2
      simp [intInsert, intLookup, h]
    · by_cases h3 : k2 = kv.1
      · simp [intInsert, intLookup, h2, h3]
      · simp [intInsert, intLookup, h2, h3, ih]

/-- Entries of an insert come from the dict or are the new pair. -/
theorem mem_intInsert {V : Type} (d : IntDict V) (k : Int) (v : V) :
    ∀ sl ∈ intInsert d k v, sl ∈ d ∨ sl = (k, v) := by
  induction d with
  | nil =>
    intro sl hsl
    simp only [intInsert, List.mem_singleton] at hsl
    exact Or.inr hsl
  | cons kv rest ih =>
    intro sl hsl
    by_cases h : k = kv.1
    · subst h
      have hsl2 : sl = (kv.1, v) ∨ sl ∈ rest := by
        simpa [intInsert] using hsl
      rcases hsl2 with he | hm
      · exact Or.inr he
      · exact Or.inl (List.mem_cons_of_mem _ hm)
    · simp only [intInsert, if_neg h, List.mem_cons] at hsl
      rcases hsl with hsl | hsl
      · exact Or.inl (hsl ▸ List.mem_cons_self _ _)
      · rcases ih sl hsl with hm | hm
        · exact Or.inl (List.mem_cons_of_mem _ hm)
        · exact Or.inr hm

/-- Key distinctness survives an insert. -/
theorem intKeysDistinct_intInsert {V : Type} (d : IntDict V) (k : Int) (v : V)
    (hd : intKeysDistinct d = true) : intKeysDistinct (intInsert d k v) = true := by
  induction d with
  | nil => simp [intInsert, intKeysDistinct, intLookup]
  | cons kv rest ih =>
    simp only [intKeysDistinct, Bool.and_eq_true] at hd
    by_cases h : k = kv.1
    · subst h
      simp only [intInsert, if_pos rfl, intKeysDistinct, Bool.and_eq_true]
      exact hd
    · simp only [intInsert, if_neg h, intKeysDistinct, Bool.and_eq_true]
      refine ⟨?_, ih hd.2⟩
      rw [intLookup_intInsert_other rest k kv.1 v (fun hh => h hh.symm)]
      exact hd.1

/-- Entries of an erase come from the dict. -/
theorem mem_of_mem_intErase {V : Type} (d : IntDict V) (k : Int) :
    ∀ sl ∈ intErase d k, sl ∈ d := by
  induction d with
  | nil => intro sl hsl; simp [intErase] at hsl
  | cons kv rest ih =>
    intro sl hsl
    by_cases h : k = kv.1
    · simp only [intErase, if_pos h] at hsl
      exact List.mem_cons_of_mem _ hsl
    · simp only [intErase, if_neg h, List.mem_cons] at hsl
      rcases hsl with hsl | hsl
      · exact hsl ▸ List.mem_cons_self _ _
      · exact List.mem_cons_of_mem _ (ih sl hsl)

/-- Lookup of another key is unaffected by an erase. -/
theorem intLookup_intErase_other {V : Type} (d : IntDict V) (k k2 : Int)
    (h : k2 ≠ k) : intLookup (intErase d k) k2 = intLookup d k2 := by
  induction d with
  | nil => simp [intErase]
  | cons kv rest ih =>
    by_cases h2 : k = kv.1
    · subst h2
      simp [intErase, intLookup, h]
    · by_cases h3 : k2 = kv.1
      · simp [intErase, intLookup, h2, h3]
      · simp [intErase, intLookup, h2, h3, ih]

/-- An absent key stays absent across an erase. -/
theorem intLookup_intErase_none {V : Type} (d : IntDict V) (k k2 : Int)
    (h : intLookup d k2 = none) : intLookup (intErase d k) k2 = none := by
  induction d with
  | nil => simp [intErase, intLookup]
  | cons kv rest ih =>
    have hne : ¬ k2 = kv.1 := by
      intro hh
      simp [intLookup, hh] at h
    have hrest : intLookup rest k2 = none := by
      simpa [intLookup, hne] using h
    by_cases h2 : k = kv.1
    · simp only [intErase, if_pos h2]
      exact hrest
    · simp only [intErase, if_neg h2, intLookup, if_neg hne]
      exact ih hrest

/-- Key distinctness survives an erase. -/
theorem intKeysDistinct_intErase {V : Type} (d : IntDict V) (k : Int)
    (hd : intKeysDistinct d = true) : intKeysDistinct (intErase d k) = true := by
  induction d with
  | nil => simp [intErase, intKeysDistinct]
  | cons kv rest ih =>
    simp only [intKeysDistinct, Bool.and_eq_true] at hd
    by_cases h : k = kv.1
    · simp only [intErase, if_pos h]
      exact hd.2
    · simp only [intErase, if_neg h, intKeysDistinct, Bool.and_eq_true]
      refine ⟨?_, ih hd.2⟩
      rw [intLookup_intErase_none rest k kv.1 (by
        simpa using hd.1)]
      rfl

/-- An absent key heads no entry. -/
theorem key_ne_of_intLookup_none {V : Type} (d : IntDict V) (k : Int)
    (h : intLookup d k = none) : ∀ sl ∈ d, sl.1 ≠ k := by
  induction d with
  | nil => intro sl hsl; simp at hsl
  | cons kv rest ih =>
    intro sl hsl
    have hne : ¬ k = kv.1 := by
      intro hh
      simp [intLookup, hh] at h
    have hrest : intLookup rest k = none := by
      simpa [intLookup, hne] using h
    rcases List.mem_cons.mp hsl with hm | hm
    · rw [hm]
      exact fun hh => hne hh.symm
    · exact ih hrest sl hm

/-- With distinct keys, entries surviving the erase of a present key have
a different key. -/
theorem key_ne_of_mem_intErase {V : Type} (d : IntDict V) (k : Int)
    (hd : intKeysDistinct d = true) (hc : (intLookup d k).isSome = true) :
    ∀ sl ∈ intErase d k, sl.1 ≠ k := by
  induction d with
  | nil => intro sl hsl; simp [intErase] at hsl
  | cons kv rest ih =>
    simp only [intKeysDistinct, Bool.and_eq_true] at hd
    intro sl hsl
    by_cases h : k = kv.1
    · subst h
      simp only [intErase, if_pos rfl] at hsl
      have hnone : intLookup rest kv.1 = none := by
        simpa using hd.1
      exact fun hh => key_ne_of_intLookup_none rest kv.1 hnone sl hsl hh
    · simp only [intErase, if_neg h, List.mem_cons] at hsl
      have hcrest : (intLookup rest k).isSome = true := by
        simp only [intLookup, if_neg h] at hc
        exact hc
      rcases hsl with hsl | hsl
      · rw [hsl]
        exact fun hh => h hh.symm
      · exact ih hd.2 hcrest sl hsl

/-- Characterisation of Python `list.remove` on a duplicate-free list
containing an identity-match: it succeeds, drops exactly the matching
element, and keeps everything else. -/
theorem listRemove_char (l : List AlarmedChannelData) (cd : AlarmedChannelData) :
    pairwiseDistinct l = true → pyMem cd l = true →
      ∃ l2, listRemove l cd = some l2 ∧
        (∀ c ∈ l2, c ∈ l ∧ pyEq cd c = false) ∧
        (∀ c ∈ l, pyEq cd c = false → c ∈ l2) ∧
        pairwiseDistinct l2 = true := by
  induction l with
  | nil => intro _ hm; simp [pyMem] at hm
  | cons x rest ih =>
    intro hd hm
    obtain ⟨hx, hrest⟩ := pairwiseDistinct_head x rest hd
    by_cases hp : pyEq cd x = true
    · refine ⟨rest, ?_, ?_, ?_, hrest⟩
      · simp [listRemove, hp]
      · intro c hc
        refine ⟨List.mem_cons_of_mem _ hc, ?_⟩
        rw [pyEq_trans_left cd x c hp]
        exact hx c hc
      · intro c hc hne
        rcases List.mem_cons.mp hc with he | hmm
        · subst he
          rw [hne] at hp
          exact absurd hp (by simp)
        · exact hmm
    · simp only [Bool.not_eq_true] at hp
      have hmrest : pyMem cd rest = true := by
        simp only [pyMem, List.any_eq_true] at hm ⊢
        rcases hm with ⟨y, hy, he⟩
        rcases List.mem_cons.mp hy with he2 | he2
        · subst he2
          rw [hp] at he
          exact absurd he (by simp)
        · exact ⟨y, he2, he⟩
      obtain ⟨l2, hrm, hsub, hkeep, hd2⟩ := ih hrest hmrest
      refine ⟨x :: l2, ?_, ?_, ?_, ?_⟩
      · simp [listRemove, hp, hrm]
      · intro c hc
        rcases List.mem_cons.mp hc with he | hmm
        · subst he
          exact ⟨List.mem_cons_self _ _, hp⟩
        · obtain ⟨hcm, hcne⟩ := hsub c hmm
          exact ⟨List.mem_cons_of_mem _ hcm, hcne⟩
      · intro c hc hne
        rcases List.mem_cons.mp hc with he | hmm
        · subst he
          exact List.mem_cons_self _ _
        · exact List.mem_cons_of_mem _ (hkeep c hmm hne)
      · simp only [pairwiseDistinct, Bool.and_eq_true, Bool.not_eq_true']
        refine ⟨?_, hd2⟩
        by_contra hcon
        simp only [Bool.not_eq_false, pyMem, List.any_eq_true] at hcon
        obtain ⟨c, hcm, hce⟩ := hcon
        obtain ⟨hcrest, _⟩ := hsub c hcm
        have := hx c hcrest
        rw [this] at hce
        exact absurd hce (by simp)

/-- Appending a fresh identity keeps a list pairwise distinct. -/
theorem pairwiseDistinct_append_singleton (l : List AlarmedChannelData)
    (cd : AlarmedChannelData) (hd : pairwiseDistinct l = true)
    (hne : ∀ c ∈ l, pyEq c cd = false) :
    pairwiseDistinct (l ++ [cd]) = true := by
  induction l with
  | nil => simp [pairwiseDistinct, pyMem]
  | cons x rest ih =>
    obtain ⟨hx, hrest⟩ := pairwiseDistinct_head x rest hd
    simp only [List.cons_append, pairwiseDistinct, Bool.and_eq_true,
      Bool.not_eq_true']
    refine ⟨?_, ih hrest (fun c hc => hne c (List.mem_cons_of_mem _ hc))⟩
    by_contra hcon
    simp only [Bool.not_eq_false, pyMem, List.any_eq_true] at hcon
    obtain ⟨c, hcm, hce⟩ := hcon
    rcases List.mem_append.mp hcm with hm | hm
    · have := hx c hm
      rw [this] at hce
      exact absurd hce (by simp)
    · simp only [List.mem_singleton] at hm
      subst hm
      have := hne x (List.mem_cons_self _ _)
      rw [this] at hce
      exact absurd hce (by simp)

/-- `update_sensor_status` touches only the sensor table. -/
theorem update_sensor_status_fields (mst : AlarmManagerState) (sid : Int) :
    (update_sensor_status mst sid).alarmed_channels = mst.alarmed_channels ∧
    (update_sensor_status mst sid).alarmed_channels_by_sensor =
      mst.alarmed_channels_by_sensor := by
  unfold update_sensor_status
  constructor <;> split <;> rfl

/-- The registry and index produced by `on_alarm_start`. -/
theorem on_alarm_start_fields (mst : AlarmManagerState) (date : Time)
    (cd : AlarmedChannelData) (measure : Int) :
    (on_alarm_start mst date cd measure).alarmed_channels =
      dictInsert mst.alarmed_channels cd date ∧
    (on_alarm_start mst date cd measure).alarmed_channels_by_sensor =
      (match intLookup mst.alarmed_channels_by_sensor cd.data.sensor_id with
        | some l => intInsert mst.alarmed_channels_by_sensor
            cd.data.sensor_id (l ++ [cd])
        | none => intInsert mst.alarmed_channels_by_sensor
            cd.data.sensor_id [cd]) := by
  unfold on_alarm_start
  constructor
  · exact (update_sensor_status_fields _ _).1
  · exact (update_sensor_status_fields _ _).2

/-- Entries found by lookup are entries. -/
theorem intLookup_mem {V : Type} (d : IntDict V) (k : Int) (v : V)
    (h : intLookup d k = some v) : (k, v) ∈ d := by
  induction d with
  | nil => simp [intLookup] at h
  | cons kv rest ih =>
    by_cases h2 : k = kv.1
    · subst h2
      simp only [intLookup, if_true, eq_self_iff_true, Option.some_inj,
        ite_true] at h
      subst h
      exact List.mem_cons_self _ _
    · simp only [intLookup, if_neg h2] at h
      exact List.mem_cons_of_mem _ (ih h)

/-- With distinct keys, entries of an insert are old entries of other
keys, or the inserted pair. -/
theorem mem_intInsert_distinct {V : Type} (d : IntDict V) (k : Int) (v : V)
    (hd : intKeysDistinct d = true) :
    ∀ sl ∈ intInsert d k v, (sl ∈ d ∧ sl.1 ≠ k) ∨ sl = (k, v) := by
  induction d with
  | nil =>
    intro sl hsl
    simp only [intInsert, List.mem_singleton] at hsl
    exact Or.inr hsl
  | cons kv rest ih =>
    simp only [intKeysDistinct, Bool.and_eq_true] at hd
    intro sl hsl
    by_cases h : k = kv.1
    · subst h
      have hsl2 : sl = (kv.1, v) ∨ sl ∈ rest := by
        simpa [intInsert] using hsl
      rcases hsl2 with he | hm
      · exact Or.inr he
      · refine Or.inl ⟨List.mem_cons_of_mem _ hm, ?_⟩
        have hnone : intLookup rest kv.1 = none := by
          simpa using hd.1
        exact key_ne_of_intLookup_none rest kv.1 hnone sl hm
    · simp only [intInsert, if_neg h, List.mem_cons] at hsl
      rcases hsl with hsl | hsl
      · exact Or.inl ⟨hsl ▸ List.mem_cons_self _ _, by
          rw [hsl]
          exact fun hh => h hh.symm⟩
      · rcases ih hd.2 sl hsl with ⟨hm, hne⟩ | hm
        · exact Or.inl ⟨List.mem_cons_of_mem _ hm, hne⟩
        · exact Or.inr hm

/-- Unfolding of the invariant into its components. -/
theorem registryIndexInv_iff (reg : PyDict Time)
    (idx : IntDict (List AlarmedChannelData)) :
    registryIndexInv reg idx = true ↔
      ((∀ kv ∈ reg, ∃ l, intLookup idx kv.1.data.sensor_id = some l ∧
          kv.1 ∈ l) ∧
       (∀ sl ∈ idx, sl.2 ≠ [] ∧ pairwiseDistinct sl.2 = true ∧
          ∀ c ∈ sl.2, (∃ kv ∈ reg, kv.1 = c) ∧ c.data.sensor_id = sl.1) ∧
       pairwiseDistinct (reg.map Prod.fst) = true ∧
       intKeysDistinct idx = true) := by
  unfold registryIndexInv
  simp only [Bool.and_eq_true, List.all_eq_true]
  constructor
  · rintro ⟨⟨⟨h1, h2⟩, h3⟩, h4⟩
    refine ⟨fun kv hkv => ?_, fun sl hsl => ?_, h3, h4⟩
    · have h5 := h1 kv hkv
      cases hL : intLookup idx kv.1.data.sensor_id with
      | none =>
        rw [hL] at h5
        exact absurd h5 (by simp)
      | some l =>
        rw [hL] at h5
        simp only [List.any_eq_true, decide_eq_true_eq] at h5
        obtain ⟨c, hcm, hce⟩ := h5
        exact ⟨l, rfl, hce ▸ hcm⟩
    · have h5 := h2 sl hsl
      simp only [Bool.and_eq_true, Bool.not_eq_true', List.all_eq_true,
        List.any_eq_true, decide_eq_true_eq, beq_iff_eq] at h5
      obtain ⟨⟨hne, hpd⟩, hall⟩ := h5
      refine ⟨?_, hpd, fun c hc => hall c hc⟩
      intro hcon
      rw [hcon] at hne
      simp at hne
  · rintro ⟨h1, h2, h3, h4⟩
    refine ⟨⟨⟨fun kv hkv => ?_, fun sl hsl => ?_⟩, h3⟩, h4⟩
    · obtain ⟨l, hL, hm⟩ := h1 kv hkv
      rw [hL]
      simp only [List.any_eq_true, decide_eq_true_eq]
      exact ⟨kv.1, hm, rfl⟩
    · obtain ⟨hne, hpd, hall⟩ := h2 sl hsl
      simp only [Bool.and_eq_true, Bool.not_eq_true', List.all_eq_true,
        List.any_eq_true, decide_eq_true_eq, beq_iff_eq]
      refine ⟨⟨?_, hpd⟩, fun c hc => ⟨(hall c hc).1, (hall c hc).2⟩⟩
      cases hcase : sl.2 with
      | nil => exact absurd hcase hne
      | cons a b => simp

/-- `on_alarm_start` preserves the registry/index invariant when invoked,
as at its call sites, on a channel absent from the registry. -/
theorem registryIndexInv_on_alarm_start (mst : AlarmManagerState) (date : Time)
    (cd : AlarmedChannelData) (measure : Int)
    (hinv : registryIndexInv mst.alarmed_channels
      mst.alarmed_channels_by_sensor = true)
    (hguard : dictContains mst.alarmed_channels cd = false) :
    registryIndexInv (on_alarm_start mst date cd measure).alarmed_channels
      (on_alarm_start mst date cd measure).alarmed_channels_by_sensor = true := by
  obtain ⟨hf1, hf2⟩ := on_alarm_start_fields mst date cd measure
  rw [hf1, hf2]
  rw [registryIndexInv_iff] at hinv ⊢
  obtain ⟨h1, h2, h3, h4⟩ := hinv
  have hregins : dictInsert mst.alarmed_channels cd date =
      mst.alarmed_channels ++ [(cd, date)] :=
    dictInsert_of_not_contains _ cd date hguard
  have hnokey : ∀ kv ∈ mst.alarmed_channels, pyEq kv.1 cd = false := by
    intro kv hkv
    by_contra hcon
    simp only [Bool.not_eq_false] at hcon
    have hc2 : dictContains mst.alarmed_channels cd = true :=
      (dictContains_iff _ _).mpr ⟨kv, hkv, by rw [pyEq_comm]; exact hcon⟩
    rw [hc2] at hguard
    exact absurd hguard (by simp)
  have hpart3 : pairwiseDistinct
      ((mst.alarmed_channels ++ [(cd, date)]).map Prod.fst) = true := by
    have hmap : (mst.alarmed_channels ++ [(cd, date)]).map Prod.fst =
        mst.alarmed_channels.map Prod.fst ++ [cd] := by simp
    rw [hmap]
    apply pairwiseDistinct_append_singleton _ _ h3
    intro k hk
    obtain ⟨kv, hkvm, hkve⟩ := List.mem_map.mp hk
    rw [← hkve]
    exact hnokey kv hkvm
  rw [hregins]
  cases hL : intLookup mst.alarmed_channels_by_sensor cd.data.sensor_id with
  | some l =>
    have hslmem : (cd.data.sensor_id, l) ∈ mst.alarmed_channels_by_sensor :=
      intLookup_mem _ _ _ hL
    obtain ⟨hlne, hlpd, hlall⟩ := h2 _ hslmem
    have hlnocd : ∀ c ∈ l, pyEq c cd = false := by
      intro c hc
      obtain ⟨⟨kv, hkvm, hkve⟩, _⟩ := hlall c hc
      rw [← hkve]
      exact hnokey kv hkvm
    refine ⟨?_, ?_, hpart3, intKeysDistinct_intInsert _ _ _ h4⟩
    · intro kv hkv
      rcases List.mem_append.mp hkv with hm | hm
      · obtain ⟨l2, hL2, hm2⟩ := h1 kv hm
        by_cases hs : kv.1.data.sensor_id = cd.data.sensor_id
        · rw [hs] at hL2 ⊢
          rw [hL] at hL2
          have hle : l = l2 := Option.some_inj.mp hL2
          refine ⟨l ++ [cd], intLookup_intInsert_self _ _ _, ?_⟩
          exact List.mem_append.mpr (Or.inl (hle ▸ hm2))
        · refine ⟨l2, ?_, hm2⟩
          rw [intLookup_intInsert_other _ _ _ _ hs]
          exact hL2
      · simp only [List.mem_singleton] at hm
        subst hm
        refine ⟨l ++ [cd], intLookup_intInsert_self _ _ _, ?_⟩
        exact List.mem_append.mpr (Or.inr (by simp))
    · intro sl hsl
      rcases mem_intInsert _ _ _ sl hsl with hm | hm
      · obtain ⟨hne2, hpd2, hall2⟩ := h2 sl hm
        refine ⟨hne2, hpd2, fun c hc => ?_⟩
        obtain ⟨⟨kv, hkvm, hkve⟩, hsen⟩ := hall2 c hc
        exact ⟨⟨kv, List.mem_append.mpr (Or.inl hkvm), hkve⟩, hsen⟩
      · subst hm
        refine ⟨by simp, pairwiseDistinct_append_singleton l cd hlpd hlnocd, ?_⟩
        intro c hc
        rcases List.mem_append.mp hc with hm2 | hm2
        · obtain ⟨⟨kv, hkvm, hkve⟩, hsen⟩ := hlall c hm2
          exact ⟨⟨kv, List.mem_append.mpr (Or.inl hkvm), hkve⟩, hsen⟩
        · simp only [List.mem_singleton] at hm2
          exact ⟨⟨(cd, date), List.mem_append.mpr (Or.inr (by simp)), hm2.symm⟩,
            by rw [hm2]⟩
  | none =>
    refine ⟨?_, ?_, hpart3, intKeysDistinct_intInsert _ _ _ h4⟩
    · intro kv hkv
      rcases List.mem_append.mp hkv with hm | hm
      · obtain ⟨l2, hL2, hm2⟩ := h1 kv hm
        have hs : kv.1.data.sensor_id ≠ cd.data.sensor_id := by
          intro hh
          rw [hh, hL] at hL2
          exact absurd hL2 (by simp)
        refine ⟨l2, ?_, hm2⟩
        rw [intLookup_intInsert_other _ _ _ _ hs]
        exact hL2
      · simp only [List.mem_singleton] at hm
        subst hm
        exact ⟨[cd], intLookup_intInsert_self _ _ _, by simp⟩
    · intro sl hsl
      rcases mem_intInsert _ _ _ sl hsl with hm | hm
      · obtain ⟨hne2, hpd2, hall2⟩ := h2 sl hm
        refine ⟨hne2, hpd2, fun c hc => ?_⟩
        obtain ⟨⟨kv, hkvm, hkve⟩, hsen⟩ := hall2 c hc
        exact ⟨⟨kv, List.mem_append.mpr (Or.inl hkvm), hkve⟩, hsen⟩
      · subst hm
        refine ⟨by simp, by simp [pairwiseDistinct, pyMem], ?_⟩
        intro c hc
        simp only [List.mem_singleton] at hc
        exact ⟨⟨(cd, date), List.mem_append.mpr (Or.inr (by simp)), hc.symm⟩,
          by rw [hc]⟩

/-- `on_alarm_end` succeeds and preserves the registry/index invariant
when invoked, as at its call site, on a key object of the registry. -/
theorem registryIndexInv_on_alarm_end (mst : AlarmManagerState)
    (cd : AlarmedChannelData) (t : Time)
    (hinv : registryIndexInv mst.alarmed_channels
      mst.alarmed_channels_by_sensor = true)
    (hmem : (cd, t) ∈ mst.alarmed_channels) :
    ∃ mst2, on_alarm_end mst cd = some mst2 ∧
      registryIndexInv mst2.alarmed_channels
        mst2.alarmed_channels_by_sensor = true := by
  obtain ⟨h1, h2, h3, h4⟩ := (registryIndexInv_iff _ _).mp hinv
  have hcont : dictContains mst.alarmed_channels cd = true :=
    (dictContains_iff _ _).mpr ⟨(cd, t), hmem, pyEq_refl cd⟩
  obtain ⟨l, hL, hcdl⟩ := h1 (cd, t) hmem
  have hslmem : (cd.data.sensor_id, l) ∈ mst.alarmed_channels_by_sensor :=
    intLookup_mem _ _ _ hL
  obtain ⟨hlne, hlpd, hlall⟩ := h2 _ hslmem
  have hpym : pyMem cd l = true := by
    simp only [pyMem, List.any_eq_true]
    exact ⟨cd, hcdl, pyEq_refl cd⟩
  obtain ⟨l2, hrm, hsub, hkeep, hl2pd⟩ := listRemove_char l cd hlpd hpym
  have hend : on_alarm_end mst cd = some (update_sensor_status
      { mst with
        alarmed_channels := dictErase mst.alarmed_channels cd,
        alarmed_channels_by_sensor :=
          if l2.length = 0 then
            intErase mst.alarmed_channels_by_sensor cd.data.sensor_id
          else
            intInsert mst.alarmed_channels_by_sensor cd.data.sensor_id l2 }
      cd.data.sensor_id) := by
    unfold on_alarm_end
    rw [hcont]
    rw [if_neg (by simp)]
    rw [hL]
    dsimp only
    rw [hrm]
  obtain ⟨hu1, hu2⟩ := update_sensor_status_fields
    { mst with
      alarmed_channels := dictErase mst.alarmed_channels cd,
      alarmed_channels_by_sensor :=
        if l2.length = 0 then
          intErase mst.alarmed_channels_by_sensor cd.data.sensor_id
        else
          intInsert mst.alarmed_channels_by_sensor cd.data.sensor_id l2 }
    cd.data.sensor_id
  refine ⟨_, hend, ?_⟩
  rw [hu1, hu2]
  have hsurv : ∀ kv ∈ dictErase mst.alarmed_channels cd,
      kv ∈ mst.alarmed_channels ∧ pyEq cd kv.1 = false :=
    fun kv hkv => ⟨mem_of_mem_dictErase _ _ _ hkv,
      not_pyEq_of_mem_dictErase _ _ h3 _ hkv hcont⟩
  have huniq : ∀ kv ∈ mst.alarmed_channels, pyEq cd kv.1 = true → kv.1 = cd := by
    intro kv hkv he
    have hmem1 : cd ∈ mst.alarmed_channels.map Prod.fst := by
      exact List.mem_map_of_mem Prod.fst hmem
    have hmem2 : kv.1 ∈ mst.alarmed_channels.map Prod.fst :=
      List.mem_map_of_mem Prod.fst hkv
    exact pairwiseDistinct_eq _ h3 kv.1 cd hmem2 hmem1
      (by rw [pyEq_comm]; exact he)
  rw [registryIndexInv_iff]
  by_cases hlen : l2.length = 0
  · have hl2nil : l2 = [] := List.length_eq_zero.mp hlen
    rw [if_pos hlen]
    refine ⟨?_, ?_, pairwiseDistinct_dictErase _ _ h3,
      intKeysDistinct_intErase _ _ h4⟩
    · intro kv hkv
      obtain ⟨hkvreg, hkvne⟩ := hsurv kv hkv
      obtain ⟨l3, hL3, hm3⟩ := h1 kv hkvreg
      by_cases hs : kv.1.data.sensor_id = cd.data.sensor_id
      · rw [hs] at hL3
        rw [hL] at hL3
        have hl3 : l = l3 := Option.some_inj.mp hL3
        have : kv.1 ∈ l2 := hkeep kv.1 (hl3 ▸ hm3) hkvne
        rw [hl2nil] at this
        simp at this
      · refine ⟨l3, ?_, hm3⟩
        rw [intLookup_intErase_other _ _ _ hs]
        exact hL3
    · intro sl hsl
      have hslold : sl ∈ mst.alarmed_channels_by_sensor :=
        mem_of_mem_intErase _ _ sl hsl
      have hslne : sl.1 ≠ cd.data.sensor_id :=
        key_ne_of_mem_intErase _ _ h4 (by rw [hL]; rfl) sl hsl
      obtain ⟨hne2, hpd2, hall2⟩ := h2 sl hslold
      refine ⟨hne2, hpd2, fun c hc => ?_⟩
      obtain ⟨⟨kv, hkvm, hkve⟩, hsen⟩ := hall2 c hc
      have hkvne : pyEq cd kv.1 = false := by
        by_contra hcon
        simp only [Bool.not_eq_false] at hcon
        have he1 : kv.1 = cd := huniq kv hkvm hcon
        have : c.data.sensor_id = cd.data.sensor_id := by
          rw [← hkve, he1]
        rw [hsen] at this
        exact hslne this
      exact ⟨⟨kv, mem_dictErase_of_mem _ _ _ hkvm hkvne, hkve⟩, hsen⟩
  · rw [if_neg hlen]
    refine ⟨?_, ?_, pairwiseDistinct_dictErase _ _ h3,
      intKeysDistinct_intInsert _ _ _ h4⟩
    · intro kv hkv
      obtain ⟨hkvreg, hkvne⟩ := hsurv kv hkv
      obtain ⟨l3, hL3, hm3⟩ := h1 kv hkvreg
      by_cases hs : kv.1.data.sensor_id = cd.data.sensor_id
      · rw [hs] at hL3 ⊢
        rw [hL] at hL3
        have hl3 : l = l3 := Option.some_inj.mp hL3
        refine ⟨l2, intLookup_intInsert_self _ _ _, ?_⟩
        exact hkeep kv.1 (hl3 ▸ hm3) hkvne
      · refine ⟨l3, ?_, hm3⟩
        rw [intLookup_intInsert_other _ _ _ _ hs]
        exact hL3
    · intro sl hsl
      rcases mem_intInsert_distinct _ _ _ h4 sl hsl with ⟨hslold, hslne⟩ | hnew
      · obtain ⟨hne2, hpd2, hall2⟩ := h2 sl hslold
        refine ⟨hne2, hpd2, fun c hc => ?_⟩
        obtain ⟨⟨kv, hkvm, hkve⟩, hsen⟩ := hall2 c hc
        have hkvne : pyEq cd kv.1 = false := by
          by_contra hcon
          simp only [Bool.not_eq_false] at hcon
          have he1 : kv.1 = cd := huniq kv hkvm hcon
          have : c.data.sensor_id = cd.data.sensor_id := by
            rw [← hkve, he1]
          rw [hsen] at this
          exact hslne this
        exact ⟨⟨kv, mem_dictErase_of_mem _ _ _ hkvm hkvne, hkve⟩, hsen⟩
      · refine ⟨?_, ?_, ?_⟩
        · rw [hnew]
          intro hcon
          simp only at hcon
          rw [hcon] at hlen
          simp at hlen
        · rw [hnew]
          exact hl2pd
        · intro c hc
          rw [hnew] at hc
          simp only at hc
          obtain ⟨hcl, hcne⟩ := hsub c hc
          obtain ⟨⟨kv, hkvm, hkve⟩, hsen⟩ := hlall c hcl
          have hkvne : pyEq cd kv.1 = false := by
            rw [hkve]
            exact hcne
          refine ⟨⟨kv, mem_dictErase_of_mem _ _ _ hkvm hkvne, hkve⟩, ?_⟩
          rw [hnew]
          exact hsen

/-- The initial accumulator of `compare_data` is allocation-sound. -/
theorem accBound_empty (c : Nat) : accBound ⟨[], [], c⟩ := by
  unfold accBound
  exact ⟨by simp, by simp⟩

/-! ## Claim theorems -/

/-- C1 (code bug): saving a registry holding a single alarm and reloading
it does not round-trip: `load_alarmed_channels` fails with
`AttributeError`, because `dict.fromkeys` initialises every slot of the
rebuilt per-sensor index to `None` and the rebuild loop then calls
`.append` on `None`. -/
theorem C1_load_crashes_on_nonempty_registry :
    load_alarmed_channels
      (some (save_alarmed_channels
        [(⟨0, ⟨1, 2, 3, "s", "st", "c", 10, 50⟩⟩, (7 : Time))])) 10 =
      .error "AttributeError: NoneType object has no attribute append" := by
  rfl

/-- C2 (code bug): two `AlarmedChannelData` objects with identical field
data (in particular identical six spec fields) are not equal under the
code's comparison and are not interchangeable as registry keys:
`AlarmedChannelData` defines neither `__eq__` nor `__hash__`, so Python
compares such objects by identity. -/
theorem C2_field_equal_objects_not_equal :
    (AlarmedChannelData.mk 0 ⟨1, 2, 3, "s", "st", "c", 10, 50⟩).data =
        (AlarmedChannelData.mk 1 ⟨1, 2, 3, "s", "st", "c", 10, 50⟩).data ∧
    pyEq ⟨0, ⟨1, 2, 3, "s", "st", "c", 10, 50⟩⟩
        ⟨1, ⟨1, 2, 3, "s", "st", "c", 10, 50⟩⟩ = false ∧
    dictContains [(⟨0, ⟨1, 2, 3, "s", "st", "c", 10, 50⟩⟩, (7 : Time))]
        ⟨1, ⟨1, 2, 3, "s", "st", "c", 10, 50⟩⟩ = false := by
  exact ⟨rfl, rfl, rfl⟩

/-- C3 (code bug): a channel that is Normal at tick start and appears in
both breach maps is inserted into the registry twice in the same tick,
and `on_alarm_start` (with its notification) runs in both passes: the
min-pass and max-pass dict keys are distinct freshly built objects, and
registry membership compares by object identity.  Concretely, one reading
with `value_min = 0`, `value_max = 100` against range `[10, 50]` leaves a
registry with two entries carrying the same field data and two sent
notifications, where the claim requires a single insertion with
`on_alarm_continue` on the second pass. -/
theorem C3_double_insertion :
    ((on_timer_tick ⟨0⟩ 100 [⟨"s", "rm", "st", "sn", "c", 0, 100, 10⟩]
        [⟨1, "s"⟩] [⟨2, 1, "st", true, "ok"⟩] [⟨3, 2, "c", 10, 50⟩]
        ⟨[], [], [⟨2, 1, "st", true, "ok"⟩], [], 0⟩).2.map
      (fun m => (m.alarmed_channels.map (fun kv => kv.1.data), m.outbox.length))) =
    some ([⟨1, 2, 3, "s", "st", "c", 10, 50⟩, ⟨1, 2, 3, "s", "st", "c", 10, 50⟩], 2) := by
  rfl

/-- C8 counterexample: with prior checkpoint 5 and clock value `now = 5`
(so the claim's hypothesis `now ≥ prior checkpoint` holds), a poll runs
via `control_data` but the checkpoint does not strictly increase,
refuting the claimed strict growth. -/
theorem C8_counterexample :
    ¬ (((5 : Time) ≤ 5) → 5 < (control_data ⟨5⟩ 5 []).2.last_time) := by
  decide

/-- C8 (amended): across `control_data` the checkpoint never decreases
when the clock value `now` is at least the prior checkpoint, and it
strictly increases whenever `now` is strictly greater than the prior
checkpoint (strictness for every poll cannot be guaranteed when the clock
returns exactly the prior checkpoint). -/
theorem C8_checkpoint_monotone (st : AlarmFinderState) (now : Time)
    (rs : List Reading) (h : st.last_time ≤ now) :
    st.last_time ≤ (control_data st now rs).2.last_time ∧
      (st.last_time < now → st.last_time < (control_data st now rs).2.last_time) :=
  ⟨h, fun h2 => h2⟩

/-- C8 witness: the amended monotonicity at checkpoint 3, clock 7. -/
theorem C8_checkpoint_monotone_witness :
    (3 : Time) ≤ (control_data ⟨3⟩ 7 []).2.last_time ∧
      ((3 : Time) < 7 → (3 : Time) < (control_data ⟨3⟩ 7 []).2.last_time) :=
  C8_checkpoint_monotone ⟨3⟩ 7 [] (by decide)

/-- C5 counterexample: `compare_data` joins records to the catalog by the
external channel id and site id only, not by the full identity tuple.
With catalog row `X` (station `st1`, range `[10, 50]`) and two readings —
one at `X`'s full identity with extremes 20 and 30, strictly in range,
and one at a different station `st2` with extreme 0 — every aggregated
record matching `X`'s full identity is strictly within range, yet `X` is
placed in the min-breach map (through the foreign-station record). -/
theorem C5_counterexample :
    channelsQuery [⟨1, "s"⟩] [⟨2, 1, "st1", true, "ok"⟩] [⟨3, 2, "c", 10, 50⟩] =
        [⟨3, "c", 10, 50, 2, "st1", 1, "s"⟩] ∧
    (((control_data ⟨0⟩ 100
          [⟨"s", "rm", "st1", "sn", "c", 20, 30, 5⟩,
           ⟨"s", "rm", "st2", "sn", "c", 0, 0, 6⟩]).1.1 ++
      (control_data ⟨0⟩ 100
          [⟨"s", "rm", "st1", "sn", "c", 20, 30, 5⟩,
           ⟨"s", "rm", "st2", "sn", "c", 0, 0, 6⟩]).1.2).filter
        (fun rec => specFullIdentityMatch ⟨3, "c", 10, 50, 2, "st1", 1, "s"⟩ rec)).all
      (fun rec => decide ((10 : Int) < rec.value) && decide (rec.value < (50 : Int))) =
        true ∧
    ((compare_data ⟨0⟩ 100
        [⟨"s", "rm", "st1", "sn", "c", 20, 30, 5⟩,
         ⟨"s", "rm", "st2", "sn", "c", 0, 0, 6⟩]
        [⟨1, "s"⟩] [⟨2, 1, "st1", true, "ok"⟩] [⟨3, 2, "c", 10, 50⟩] 0).1.1.map
      (fun kv => kv.1.data)) =
      [rowData ⟨3, "c", 10, 50, 2, "st1", 1, "s"⟩] := by
  refine ⟨rfl, ?_, rfl⟩
  decide

/-- C5 (amended): `compare_data` joins aggregated records to the
enabled-channel catalog by the external channel id and external site id
only (`joinMatch`), not by the full identity tuple.  For every catalog
channel: (a) when every aggregated record matching it on those two fields
is strictly within its range, the channel appears in neither breach map;
(b) each aggregated-minimum record joining the channel is recorded as a
min breach when its value is `<= range_min`, and otherwise as a max
breach when its value is `>= range_max` — classification after the join,
in that order. -/
theorem C5_join_and_classification (st : AlarmFinderState) (now : Time)
    (rs : List Reading) (sites : List SiteRow) (sensors : List SensorRow)
    (channels : List ChannelRow) (ctr : Nat) (ch : CatalogRow)
    (hch : ch ∈ channelsQuery sites sensors channels) :
    ((∀ rec ∈ (control_data st now rs).1.1 ++ (control_data st now rs).1.2,
        joinMatch ch rec = true →
          ch.range_min < rec.value ∧ rec.value < ch.range_max) →
      (∀ kv ∈ (compare_data st now rs sites sensors channels ctr).1.1,
          kv.1.data ≠ rowData ch) ∧
      (∀ kv ∈ (compare_data st now rs sites sensors channels ctr).1.2,
          kv.1.data ≠ rowData ch)) ∧
    (∀ rec ∈ (control_data st now rs).1.1, joinMatch ch rec = true →
      (rec.value ≤ ch.range_min →
        ∃ kv ∈ (compare_data st now rs sites sensors channels ctr).1.1,
          kv.1.data = rowData ch ∧ kv.2 = (rec.value, rec.date)) ∧
      (¬ rec.value ≤ ch.range_min → ch.range_max ≤ rec.value →
        ∃ kv ∈ (compare_data st now rs sites sensors channels ctr).1.2,
          kv.1.data = rowData ch ∧ kv.2 = (rec.value, rec.date))) := by
  have hcd1 : (compare_data st now rs sites sensors channels ctr).1.1 =
      (((control_data st now rs).1.2).foldl
        (fun a rec => (channelsQuery sites sensors channels).foldl (stepMax rec) a)
        (((control_data st now rs).1.1).foldl
          (fun a rec =>
            (channelsQuery sites sensors channels).foldl (stepMin rec) a)
          ⟨[], [], ctr⟩)).alarm_min := rfl
  have hcd2 : (compare_data st now rs sites sensors channels ctr).1.2 =
      (((control_data st now rs).1.2).foldl
        (fun a rec => (channelsQuery sites sensors channels).foldl (stepMax rec) a)
        (((control_data st now rs).1.1).foldl
          (fun a rec =>
            (channelsQuery sites sensors channels).foldl (stepMin rec) a)
          ⟨[], [], ctr⟩)).alarm_max := rfl
  have hb0 : accBound ⟨[], [], ctr⟩ := accBound_empty ctr
  have hb1 : accBound
      (((control_data st now rs).1.1).foldl
        (fun a rec => (channelsQuery sites sensors channels).foldl (stepMin rec) a)
        ⟨[], [], ctr⟩) :=
    (foldRecsMin_sound (channelsQuery sites sensors channels)
      ((control_data st now rs).1.1) ⟨[], [], ctr⟩ hb0).1
  constructor
  · intro hin
    have hminrecs : ∀ rec ∈ (control_data st now rs).1.1,
        joinMatch ch rec = true →
          ch.range_min < rec.value ∧ rec.value < ch.range_max :=
      fun rec hr => hin rec (List.mem_append.mpr (Or.inl hr))
    have hmaxrecs : ∀ rec ∈ (control_data st now rs).1.2,
        joinMatch ch rec = true →
          ch.range_min < rec.value ∧ rec.value < ch.range_max :=
      fun rec hr => hin rec (List.mem_append.mpr (Or.inr hr))
    obtain ⟨ha1, ha2⟩ := foldRecsMin_avoid ch
      (channelsQuery sites sensors channels) ((control_data st now rs).1.1)
      hminrecs ⟨[], [], ctr⟩ (by simp) (by simp)
    obtain ⟨hb1a, hb2a⟩ := foldRecsMax_avoid ch
      (channelsQuery sites sensors channels) ((control_data st now rs).1.2)
      hmaxrecs _ ha1 ha2
    constructor
    · intro kv hkv
      rw [hcd1] at hkv
      exact hb1a kv hkv
    · intro kv hkv
      rw [hcd2] at hkv
      exact hb2a kv hkv
  · intro rec hrec hj
    obtain ⟨hbfin, hmono1, hmono2⟩ := foldRecsMax_sound
      (channelsQuery sites sensors channels) ((control_data st now rs).1.2) _ hb1
    constructor
    · intro hlo
      obtain ⟨kv, hkv, hd, hv⟩ := foldRecsMin_exists_min
        (channelsQuery sites sensors channels) ((control_data st now rs).1.1)
        rec ch hrec hch hj hlo ⟨[], [], ctr⟩ hb0
      refine ⟨kv, ?_, hd, hv⟩
      rw [hcd1]
      exact hmono1 kv hkv
    · intro hlo hhi
      obtain ⟨kv, hkv, hd, hv⟩ := foldRecsMin_exists_max
        (channelsQuery sites sensors channels) ((control_data st now rs).1.1)
        rec ch hrec hch hj hlo hhi ⟨[], [], ctr⟩ hb0
      refine ⟨kv, ?_, hd, hv⟩
      rw [hcd2]
      exact hmono2 kv hkv

/-- C5 witness: the amended join/classification at a concrete scenario
(one enabled channel, one reading whose aggregated minimum breaches the
lower bound). -/
theorem C5_join_and_classification_witness :
    ((∀ rec ∈ (control_data ⟨0⟩ 100 [⟨"s", "rm", "st", "sn", "c", 0, 100, 10⟩]).1.1 ++
        (control_data ⟨0⟩ 100 [⟨"s", "rm", "st", "sn", "c", 0, 100, 10⟩]).1.2,
        joinMatch ⟨3, "c", 10, 50, 2, "st", 1, "s"⟩ rec = true →
          (⟨3, "c", 10, 50, 2, "st", 1, "s"⟩ : CatalogRow).range_min < rec.value ∧
            rec.value < (⟨3, "c", 10, 50, 2, "st", 1, "s"⟩ : CatalogRow).range_max) →
      (∀ kv ∈ (compare_data ⟨0⟩ 100 [⟨"s", "rm", "st", "sn", "c", 0, 100, 10⟩]
          [⟨1, "s"⟩] [⟨2, 1, "st", true, "ok"⟩] [⟨3, 2, "c", 10, 50⟩] 0).1.1,
          kv.1.data ≠ rowData ⟨3, "c", 10, 50, 2, "st", 1, "s"⟩) ∧
      (∀ kv ∈ (compare_data ⟨0⟩ 100 [⟨"s", "rm", "st", "sn", "c", 0, 100, 10⟩]
          [⟨1, "s"⟩] [⟨2, 1, "st", true, "ok"⟩] [⟨3, 2, "c", 10, 50⟩] 0).1.2,
          kv.1.data ≠ rowData ⟨3, "c", 10, 50, 2, "st", 1, "s"⟩)) ∧
    (∀ rec ∈ (control_data ⟨0⟩ 100 [⟨"s", "rm", "st", "sn", "c", 0, 100, 10⟩]).1.1,
      joinMatch ⟨3, "c", 10, 50, 2, "st", 1, "s"⟩ rec = true →
      (rec.value ≤ (⟨3, "c", 10, 50, 2, "st", 1, "s"⟩ : CatalogRow).range_min →
        ∃ kv ∈ (compare_data ⟨0⟩ 100 [⟨"s", "rm", "st", "sn", "c", 0, 100, 10⟩]
            [⟨1, "s"⟩] [⟨2, 1, "st", true, "ok"⟩] [⟨3, 2, "c", 10, 50⟩] 0).1.1,
          kv.1.data = rowData ⟨3, "c", 10, 50, 2, "st", 1, "s"⟩ ∧
            kv.2 = (rec.value, rec.date)) ∧
      (¬ rec.value ≤ (⟨3, "c", 10, 50, 2, "st", 1, "s"⟩ : CatalogRow).range_min →
        (⟨3, "c", 10, 50, 2, "st", 1, "s"⟩ : CatalogRow).range_max ≤ rec.value →
        ∃ kv ∈ (compare_data ⟨0⟩ 100 [⟨"s", "rm", "st", "sn", "c", 0, 100, 10⟩]
            [⟨1, "s"⟩] [⟨2, 1, "st", true, "ok"⟩] [⟨3, 2, "c", 10, 50⟩] 0).1.2,
          kv.1.data = rowData ⟨3, "c", 10, 50, 2, "st", 1, "s"⟩ ∧
            kv.2 = (rec.value, rec.date))) :=
  C5_join_and_classification ⟨0⟩ 100 [⟨"s", "rm", "st", "sn", "c", 0, 100, 10⟩]
    [⟨1, "s"⟩] [⟨2, 1, "st", true, "ok"⟩] [⟨3, 2, "c", 10, 50⟩] 0
    ⟨3, "c", 10, 50, 2, "st", 1, "s"⟩ (by decide)

/-- C7: after the persisted registry is loaded, `start` resets to `"ok"`
(and persists, i.e. writes into the returned sensor table) the status of
every sensor whose stored status is not `"ok"` and whose id is absent
from the freshly loaded per-sensor index, and leaves every sensor whose
id is present in the index completely unchanged. -/
theorem C7_startup_reconciliation (sensors : List SensorRow)
    (idx : IntDict (List AlarmedChannelData)) (i : Nat) (h : i < sensors.length) :
    ∃ h2 : i < (start sensors idx).length,
      (((sensors.get ⟨i, h⟩).status ≠ "ok" ∧
          intLookup idx (sensors.get ⟨i, h⟩).id = none) →
        (start sensors idx).get ⟨i, h2⟩ =
          { sensors.get ⟨i, h⟩ with status := "ok" }) ∧
      ((intLookup idx (sensors.get ⟨i, h⟩).id).isSome →
        (start sensors idx).get ⟨i, h2⟩ = sensors.get ⟨i, h⟩) ∧
      ((sensors.get ⟨i, h⟩).status = "ok" →
        (start sensors idx).get ⟨i, h2⟩ = sensors.get ⟨i, h⟩) := by
  have h2 : i < (start sensors idx).length := by
    simpa [start] using h
  refine ⟨h2, ?_, ?_, ?_⟩
  · intro hc
    simp only [List.get_eq_getElem] at hc
    simp only [start, List.get_eq_getElem, List.getElem_map]
    rw [if_pos]
    exact ⟨hc.1, by simp [hc.2]⟩
  · intro hc
    simp only [List.get_eq_getElem] at hc
    simp only [start, List.get_eq_getElem, List.getElem_map]
    rw [if_neg]
    intro hcontra
    rw [Option.isNone_iff_eq_none] at hcontra
    simp [hcontra.2] at hc
  · intro hc
    simp only [List.get_eq_getElem] at hc
    simp only [start, List.get_eq_getElem, List.getElem_map]
    rw [if_neg]
    intro hcontra
    exact hcontra.1 hc

/-- C7 witness: the reconciliation at a concrete sensor table (one stale
sensor absent from the index, one alarmed sensor present in it). -/
theorem C7_startup_reconciliation_witness :
    ∃ h2 : 0 < (start [⟨2, 1, "st", true, "[3] fired"⟩] []).length,
      ((([⟨2, 1, "st", true, "[3] fired"⟩] :
            List SensorRow).get ⟨0, by decide⟩).status ≠ "ok" ∧
          intLookup ([] : IntDict (List AlarmedChannelData))
            (([⟨2, 1, "st", true, "[3] fired"⟩] :
              List SensorRow).get ⟨0, by decide⟩).id = none →
        (start [⟨2, 1, "st", true, "[3] fired"⟩] []).get ⟨0, h2⟩ =
          { ([⟨2, 1, "st", true, "[3] fired"⟩] :
              List SensorRow).get ⟨0, by decide⟩ with status := "ok" }) ∧
      ((intLookup ([] : IntDict (List AlarmedChannelData))
          (([⟨2, 1, "st", true, "[3] fired"⟩] :
            List SensorRow).get ⟨0, by decide⟩).id).isSome →
        (start [⟨2, 1, "st", true, "[3] fired"⟩] []).get ⟨0, h2⟩ =
          ([⟨2, 1, "st", true, "[3] fired"⟩] : List SensorRow).get ⟨0, by decide⟩) ∧
      ((([⟨2, 1, "st", true, "[3] fired"⟩] :
            List SensorRow).get ⟨0, by decide⟩).status = "ok" →
        (start [⟨2, 1, "st", true, "[3] fired"⟩] []).get ⟨0, h2⟩ =
          ([⟨2, 1, "st", true, "[3] fired"⟩] : List SensorRow).get ⟨0, by decide⟩) :=
  C7_startup_reconciliation [⟨2, 1, "st", true, "[3] fired"⟩] [] 0 (by decide)

/-- C4: for every channel passed to `check_alarmed` (the registry keys,
whose identities are pairwise distinct): when at least one stored reading
matches the channel's exact external identity tuple, the result maps the
channel to `cleared = (value_min > range_min AND value_max < range_max)`
evaluated at a matching reading of maximal timestamp (selected with no
checkpoint restriction); when no reading matches, the channel is omitted
from the result — so it is never auto-cleared — while every other given
channel is still processed the same way. -/
theorem C4_check_alarmed_spec (rs : List Reading)
    (cds : List AlarmedChannelData) (cd : AlarmedChannelData)
    (hdist : pairwiseDistinct cds = true) (hmem : cd ∈ cds) :
    (matchingReadings rs cd = [] →
      dictLookup (check_alarmed rs cds) cd = none) ∧
    (matchingReadings rs cd ≠ [] →
      ∃ m, latestReading (matchingReadings rs cd) = some m ∧
        m ∈ matchingReadings rs cd ∧
        (∀ r ∈ matchingReadings rs cd, r.date ≤ m.date) ∧
        dictLookup (check_alarmed rs cds) cd =
          some (decide (cd.data.range_min < m.value_min) &&
            decide (m.value_max < cd.data.range_max))) := by
  have hL := check_alarmed_lookup rs cds cd [] hdist hmem
  constructor
  · intro hempty
    unfold check_alarmed
    rw [hL, hempty]
    rfl
  · intro hne
    obtain ⟨m, hm⟩ := latestReading_of_ne_nil _ hne
    obtain ⟨hmem2, hmax⟩ := latestReading_spec _ m hm
    refine ⟨m, hm, hmem2, hmax, ?_⟩
    unfold check_alarmed
    rw [hL, hm]

/-- C4 witness: one alarmed channel with a single matching reading
(`value_min = 0` against `range_min = 10`, so not cleared). -/
theorem C4_check_alarmed_spec_witness :
    (matchingReadings [⟨"s", "rm", "st", "sn", "c", 0, 100, 10⟩]
        ⟨0, ⟨1, 2, 3, "s", "st", "c", 10, 50⟩⟩ = [] →
      dictLookup
        (check_alarmed [⟨"s", "rm", "st", "sn", "c", 0, 100, 10⟩]
          [⟨0, ⟨1, 2, 3, "s", "st", "c", 10, 50⟩⟩])
        ⟨0, ⟨1, 2, 3, "s", "st", "c", 10, 50⟩⟩ = none) ∧
    (matchingReadings [⟨"s", "rm", "st", "sn", "c", 0, 100, 10⟩]
        ⟨0, ⟨1, 2, 3, "s", "st", "c", 10, 50⟩⟩ ≠ [] →
      ∃ m, latestReading (matchingReadings
          [⟨"s", "rm", "st", "sn", "c", 0, 100, 10⟩]
          ⟨0, ⟨1, 2, 3, "s", "st", "c", 10, 50⟩⟩) = some m ∧
        m ∈ matchingReadings [⟨"s", "rm", "st", "sn", "c", 0, 100, 10⟩]
          ⟨0, ⟨1, 2, 3, "s", "st", "c", 10, 50⟩⟩ ∧
        (∀ r ∈ matchingReadings [⟨"s", "rm", "st", "sn", "c", 0, 100, 10⟩]
          ⟨0, ⟨1, 2, 3, "s", "st", "c", 10, 50⟩⟩, r.date ≤ m.date) ∧
        dictLookup
          (check_alarmed [⟨"s", "rm", "st", "sn", "c", 0, 100, 10⟩]
            [⟨0, ⟨1, 2, 3, "s", "st", "c", 10, 50⟩⟩])
          ⟨0, ⟨1, 2, 3, "s", "st", "c", 10, 50⟩⟩ =
          some (decide ((⟨0, ⟨1, 2, 3, "s", "st", "c", 10, 50⟩⟩ :
                AlarmedChannelData).data.range_min < m.value_min) &&
            decide (m.value_max < (⟨0, ⟨1, 2, 3, "s", "st", "c", 10, 50⟩⟩ :
                AlarmedChannelData).data.range_max))) :=
  C4_check_alarmed_spec [⟨"s", "rm", "st", "sn", "c", 0, 100, 10⟩]
    [⟨0, ⟨1, 2, 3, "s", "st", "c", 10, 50⟩⟩]
    ⟨0, ⟨1, 2, 3, "s", "st", "c", 10, 50⟩⟩ (by decide) (by simp)

/-- C6: the Reading Aggregator (`control_data`) computes, for each record
it returns, the minimum of `value_min` (resp. maximum of `value_max`)
over exactly the scanned samples of that record's group, where the
scanned samples are those with timestamp strictly greater than the
checkpoint in force for the poll; a sample whose timestamp equals that
checkpoint is excluded from that scan, and — provided the clock values of
the later polls are all at least that checkpoint — from every later scan
as well. -/
theorem C6_strict_window (st : AlarmFinderState) (now : Time)
    (rs : List Reading) (nows : List Time) (r : Reading)
    (_hmem : r ∈ rs) (hdate : r.date = st.last_time)
    (hmono : ∀ n ∈ nows, st.last_time ≤ n) :
    (∀ rec ∈ (control_data st now rs).1.1,
      rec.value ∈ (groupOf rec.key (scanned st.last_time rs)).map Reading.value_min ∧
      ∀ x ∈ scanned st.last_time rs, keyOf x = rec.key → rec.value ≤ x.value_min) ∧
    (∀ rec ∈ (control_data st now rs).1.2,
      rec.value ∈ (groupOf rec.key (scanned st.last_time rs)).map Reading.value_max ∧
      ∀ x ∈ scanned st.last_time rs, keyOf x = rec.key → x.value_max ≤ rec.value) ∧
    r ∉ scanned st.last_time rs ∧
    (∀ st2 ∈ runStates st nows rs, r ∉ scanned st2.last_time rs) := by
  refine ⟨?_, ?_, ?_, ?_⟩
  · intro rec hrec
    exact aggMin_spec (scanned st.last_time rs) rec hrec
  · intro rec hrec
    exact aggMax_spec (scanned st.last_time rs) rec hrec
  · exact not_scanned_of_eq st.last_time rs r hdate
  · intro st2 hst2
    have hn : st2.last_time ∈ nows := runStates_last_time rs st nows st2 hst2
    have hle : st.last_time ≤ st2.last_time := hmono _ hn
    exact not_scanned_of_le st2.last_time rs r (hdate ▸ hle)

/-- C6 witness: one sample dated exactly at checkpoint 5, with later
clock values 9 and 12. -/
theorem C6_strict_window_witness :
    (∀ rec ∈ (control_data ⟨5⟩ 9 [⟨"s", "rm", "st", "sn", "c", 0, 100, 5⟩]).1.1,
      rec.value ∈ (groupOf rec.key (scanned (5 : Time)
          [⟨"s", "rm", "st", "sn", "c", 0, 100, 5⟩])).map Reading.value_min ∧
      ∀ x ∈ scanned (5 : Time) [⟨"s", "rm", "st", "sn", "c", 0, 100, 5⟩],
        keyOf x = rec.key → rec.value ≤ x.value_min) ∧
    (∀ rec ∈ (control_data ⟨5⟩ 9 [⟨"s", "rm", "st", "sn", "c", 0, 100, 5⟩]).1.2,
      rec.value ∈ (groupOf rec.key (scanned (5 : Time)
          [⟨"s", "rm", "st", "sn", "c", 0, 100, 5⟩])).map Reading.value_max ∧
      ∀ x ∈ scanned (5 : Time) [⟨"s", "rm", "st", "sn", "c", 0, 100, 5⟩],
        keyOf x = rec.key → x.value_max ≤ rec.value) ∧
    (⟨"s", "rm", "st", "sn", "c", 0, 100, 5⟩ : Reading) ∉
      scanned (5 : Time) [⟨"s", "rm", "st", "sn", "c", 0, 100, 5⟩] ∧
    (∀ st2 ∈ runStates ⟨5⟩ [9, 12] [⟨"s", "rm", "st", "sn", "c", 0, 100, 5⟩],
      (⟨"s", "rm", "st", "sn", "c", 0, 100, 5⟩ : Reading) ∉
        scanned st2.last_time [⟨"s", "rm", "st", "sn", "c", 0, 100, 5⟩]) :=
  C6_strict_window ⟨5⟩ 9 [⟨"s", "rm", "st", "sn", "c", 0, 100, 5⟩] [9, 12]
    ⟨"s", "rm", "st", "sn", "c", 0, 100, 5⟩
    (List.mem_singleton.mpr rfl) rfl (by decide)

/-- C9: the derived index `alarmed_channels_by_sensor` partitions exactly
the key set of `alarmed_channels` grouped by sensor id — every registry
key appears in the list of its sensor, every channel listed in the index
is a registry key of that sensor, and no sensor id maps to an empty
list — and this invariant (`registryIndexInv`, which also records the
duplicate-freedom every Python dict and the lists enjoy) is preserved by
every completed `on_alarm_start` (invoked, as at its call sites, on a
channel not in the registry) and by every completed `on_alarm_end`
(invoked on a registry key object, and then guaranteed to complete). -/
theorem C9_index_partitions_registry (mst : AlarmManagerState) (date : Time)
    (cd : AlarmedChannelData) (measure : Int) (t : Time)
    (hinv : registryIndexInv mst.alarmed_channels
      mst.alarmed_channels_by_sensor = true) :
    (dictContains mst.alarmed_channels cd = false →
      registryIndexInv (on_alarm_start mst date cd measure).alarmed_channels
        (on_alarm_start mst date cd measure).alarmed_channels_by_sensor = true) ∧
    ((cd, t) ∈ mst.alarmed_channels →
      ∃ mst2, on_alarm_end mst cd = some mst2 ∧
        registryIndexInv mst2.alarmed_channels
          mst2.alarmed_channels_by_sensor = true) :=
  ⟨fun hg => registryIndexInv_on_alarm_start mst date cd measure hinv hg,
   fun hm => registryIndexInv_on_alarm_end mst cd t hinv hm⟩

/-- C9 witness: a state with one running alarm; a second, fresh channel
object is started. -/
theorem C9_index_partitions_registry_witness :
    (dictContains
        (AlarmManagerState.mk [(⟨0, ⟨1, 2, 3, "s", "st", "c", 10, 50⟩⟩, 5)]
          [((2 : Int), [⟨0, ⟨1, 2, 3, "s", "st", "c", 10, 50⟩⟩])]
          [⟨2, 1, "st", true, "ok"⟩] [] 1).alarmed_channels
        ⟨1, ⟨1, 4, 6, "s", "st2", "c2", 0, 9⟩⟩ = false →
      registryIndexInv
        (on_alarm_start
          (AlarmManagerState.mk [(⟨0, ⟨1, 2, 3, "s", "st", "c", 10, 50⟩⟩, 5)]
            [((2 : Int), [⟨0, ⟨1, 2, 3, "s", "st", "c", 10, 50⟩⟩])]
            [⟨2, 1, "st", true, "ok"⟩] [] 1)
          7 ⟨1, ⟨1, 4, 6, "s", "st2", "c2", 0, 9⟩⟩ 42).alarmed_channels
        (on_alarm_start
          (AlarmManagerState.mk [(⟨0, ⟨1, 2, 3, "s", "st", "c", 10, 50⟩⟩, 5)]
            [((2 : Int), [⟨0, ⟨1, 2, 3, "s", "st", "c", 10, 50⟩⟩])]
            [⟨2, 1, "st", true, "ok"⟩] [] 1)
          7 ⟨1, ⟨1, 4, 6, "s", "st2", "c2", 0, 9⟩⟩ 42).alarmed_channels_by_sensor =
        true) ∧
    ((⟨1, ⟨1, 4, 6, "s", "st2", "c2", 0, 9⟩⟩, (11 : Time)) ∈
        (AlarmManagerState.mk [(⟨0, ⟨1, 2, 3, "s", "st", "c", 10, 50⟩⟩, 5)]
          [((2 : Int), [⟨0, ⟨1, 2, 3, "s", "st", "c", 10, 50⟩⟩])]
          [⟨2, 1, "st", true, "ok"⟩] [] 1).alarmed_channels →
      ∃ mst2, on_alarm_end
          (AlarmManagerState.mk [(⟨0, ⟨1, 2, 3, "s", "st", "c", 10, 50⟩⟩, 5)]
            [((2 : Int), [⟨0, ⟨1, 2, 3, "s", "st", "c", 10, 50⟩⟩])]
            [⟨2, 1, "st", true, "ok"⟩] [] 1)
          ⟨1, ⟨1, 4, 6, "s", "st2", "c2", 0, 9⟩⟩ = some mst2 ∧
        registryIndexInv mst2.alarmed_channels
          mst2.alarmed_channels_by_sensor = true) :=
  C9_index_partitions_registry
    (AlarmManagerState.mk [(⟨0, ⟨1, 2, 3, "s", "st", "c", 10, 50⟩⟩, 5)]
      [((2 : Int), [⟨0, ⟨1, 2, 3, "s", "st", "c", 10, 50⟩⟩])]
      [⟨2, 1, "st", true, "ok"⟩] [] 1)
    7 ⟨1, ⟨1, 4, 6, "s", "st2", "c2", 0, 9⟩⟩ 42 11 (by decide)

/-- C10: for every datetime value (seven components within the ranges the
`datetime` constructor accepts), writing the checkpoint as the
space-separated component text of `control_data` and parsing it back as
`load_config` does reconstructs exactly the original timestamp. -/
theorem C10_checkpoint_text_roundtrip (d : PyDateTime)
    (h : validDateTime d = true) :
    parseDate (timeString d) = some d := by
  unfold parseDate
  rw [splitSpaces_timeString]
  simp [parseNat_natRepr, h]

/-- C10 witness: the round-trip at a concrete timestamp (a leap-year
February 29 with all time components at their maxima). -/
theorem C10_checkpoint_text_roundtrip_witness :
    parseDate (timeString ⟨2020, 2, 29, 23, 59, 59, 999999⟩) =
      some ⟨2020, 2, 29, 23, 59, 59, 999999⟩ :=
  C10_checkpoint_text_roundtrip ⟨2020, 2, 29, 23, 59, 59, 999999⟩ (by decide)

end OldMusa
